import Mathlib

/-!
# Verification of the `cfstructs` fixed-capacity containers

A shallow embedding of the `cf::hashmap` (cf_hashmap.hpp), `cf::hashset`
(cf_hashset.hpp) and `cf::memorypool` (cf_memorypool.hpp) single-header
libraries, together with proofs about the robin-hood open-addressing core.

Modelling conventions:
* `uint32_t` values are represented as `Nat` with explicit `% 2 ^ 32`
  wherever the C arithmetic can wrap; the `DELETED_HASH_BIT` operations
  (`& ~bit`, `| bit`, `& bit`) are expressed with `% 2 ^ 31`, `|||` and
  `Nat.testBit 31`, which agree with the C expressions on all `uint32_t`
  inputs.
* The three storage regions (hashes, keys, values) of a map are modelled as
  three lists of equal length `capacity`, matching the struct-of-arrays
  buffer layout; `m_num_elements` and `m_capacity` are record fields.
* The two unbounded `while (42)` loops of `cf_hashmap.hpp`
  (`_lookup_pos`, `insert`) are modelled by fuel-indexed step functions
  (`lookupPosAux`, `insertAux`): a `some` result is the value the C loop
  produces when it finishes within `fuel` iterations, `none` means the loop
  ran longer than `fuel` (possibly forever).  The public wrappers instantiate
  the fuel with `2 * capacity` resp. `capacity`, which is proved sufficient
  in every situation the theorems below consider.
* `m_num_elements--` / `++` are modelled on `Nat` (truncated at 0); the
  `size_t` wraparound is only observable in states no claim reaches.
* Out-of-range reads (undefined behaviour in C++) are modelled by
  `List.getD _ default`.
-/

set_option autoImplicit false
set_option maxRecDepth 4000
set_option linter.unusedSectionVars false

namespace cf

/-- `2^32`, the modulus of `uint32_t` arithmetic. -/
def U32 : Nat := 2 ^ 32

/-- `EMPTY_HASH = 0`, the sentinel marking an empty slot. -/
def EMPTY_HASH : Nat := 0

/-- `DELETED_HASH_BIT = 1 << 31`, the tombstone bit. -/
def DELETED_HASH_BIT : Nat := 2 ^ 31

/-- The state of a `cf::hashmap<TKey, TValue>` together with its buffer:
three parallel regions `hashes`, `keys`, `values` (struct-of-arrays layout)
plus the metadata fields `m_num_elements` and `m_capacity`. -/
structure Hashmap (K V : Type) where
  numElements : Nat
  capacity : Nat
  hashes : List Nat
  keys : List K
  values : List V
  deriving DecidableEq

namespace Hashmap

variable {K V : Type} [DecidableEq K] [Inhabited K] [Inhabited V]

/-- `hashmap::_hash`: remap `EMPTY_HASH` (0) to 1 and clear the
`DELETED_HASH_BIT` from any other hash, so that stored hashes are intended
to be distinguishable from the empty sentinel.  (Note that the input
`2^31` itself is mapped to `0`.) -/
def _hash (hash : Nat) : Nat :=
  let h := hash % U32
  if h = EMPTY_HASH then EMPTY_HASH + 1
  else if h.testBit 31 then h % DELETED_HASH_BIT
  else h

/-- `hashmap::_get_probe_distance`: clear the deleted bit, take the ideal
position `hash % m_capacity`, and return `pos - ideal_pos` in `uint32_t`
arithmetic (no reduction modulo the capacity!). -/
def _get_probe_distance (m : Hashmap K V) (pos hash : Nat) : Nat :=
  let h := hash % DELETED_HASH_BIT
  let ideal_pos := h % m.capacity
  (pos + U32 - ideal_pos) % U32

/-- One-step-indexed semantics of the `while (42)` loop of
`hashmap::_lookup_pos`.  `none` means the loop did not finish within `fuel`
iterations. -/
def lookupPosAux (m : Hashmap K V) (hash : Nat) (key : K) :
    Nat → Nat → Nat → Option (Bool × Nat)
  | _, _, 0 => none
  | pos, distance, fuel + 1 =>
    if m.hashes.getD pos 0 = EMPTY_HASH then some (false, pos)
    else if m._get_probe_distance pos (m.hashes.getD pos 0) < distance then
      some (false, pos)
    else if m.hashes.getD pos 0 = hash ∧ m.keys.get? pos = some key then
      some (true, pos)
    else lookupPosAux m hash key ((pos + 1) % m.capacity) ((distance + 1) % U32) fuel

/-- `hashmap::_lookup_pos`: start at `hash % m_capacity` with distance 0.
The C loop is unbounded; `2 * capacity` iterations are always enough
(`lookupPosAux_total` below), so the wrapper runs the step function with
that much fuel. -/
def lookupPos (m : Hashmap K V) (hash : Nat) (key : K) : Option (Bool × Nat) :=
  lookupPosAux m hash key (hash % m.capacity) 0 (2 * m.capacity)

/-- One-step-indexed semantics of the `while (42)` loop of the private
`hashmap::insert`: carry the traveling entry `(hash, key, value)`, place it
at the first empty slot, reclaim a deleted slot that is poorer than the
traveling entry, or swap with a richer resident (robin hood). -/
def insertAux : Hashmap K V → Nat → K → V → Nat → Nat → Nat → Option (Hashmap K V)
  | _, _, _, _, _, _, 0 => none
  | m, hash, key, value, pos, distance, fuel + 1 =>
    if m.hashes.getD pos 0 = EMPTY_HASH then
      some { m with hashes := m.hashes.set pos hash,
                    keys := m.keys.set pos key,
                    values := m.values.set pos value,
                    numElements := m.numElements + 1 }
    else
      let exiting_distance := m._get_probe_distance pos (m.hashes.getD pos 0)
      if exiting_distance < distance then
        if (m.hashes.getD pos 0).testBit 31 then
          some { m with hashes := m.hashes.set pos hash,
                        keys := m.keys.set pos key,
                        values := m.values.set pos value,
                        numElements := m.numElements + 1 }
        else
          insertAux { m with hashes := m.hashes.set pos hash,
                             keys := m.keys.set pos key,
                             values := m.values.set pos value }
            (m.hashes.getD pos 0) (m.keys.getD pos default) (m.values.getD pos default)
            ((pos + 1) % m.capacity) ((exiting_distance + 1) % U32) fuel
      else
        insertAux m hash key value ((pos + 1) % m.capacity) ((distance + 1) % U32) fuel

/-- `hashmap::insert` (the raw insertion primitive).  The C loop is
unbounded; whenever an empty slot exists, `capacity` iterations are enough
(`insertAux_total` below). -/
def insert (m : Hashmap K V) (hash : Nat) (key : K) (value : V) :
    Option (Hashmap K V) :=
  insertAux m hash key value (hash % m.capacity) 0 m.capacity

/-- `hashmap::create`: capacity is `buffer_size / (sizeof(TKey) +
sizeof(TValue) + sizeof(uint32_t))`; all hash slots are initialized to the
empty sentinel, the key/value regions keep the (arbitrary) previous
contents of the buffer, modelled by seed elements `k0` / `v0`. -/
def create (keySize valSize bufferSize : Nat) (k0 : K) (v0 : V) : Hashmap K V :=
  let capacity := bufferSize / (keySize + valSize + 4)
  { numElements := 0
    capacity := capacity
    hashes := List.replicate capacity EMPTY_HASH
    keys := List.replicate capacity k0
    values := List.replicate capacity v0 }

/-- `hashmap::set`: normalize the hash, look the key up, overwrite the
value in place when found, otherwise run the raw insert. -/
def set (m : Hashmap K V) (hash : Nat) (key : K) (value : V) :
    Option (Hashmap K V) :=
  match m.lookupPos (_hash hash) key with
  | none => none
  | some (true, pos) => some { m with values := m.values.set pos value }
  | some (false, _) => m.insert (_hash hash) key value

/-- `hashmap::lookup`: normalize the hash, find the slot; on success the
out-parameter receives `values[pos]`.  Result `some (some v)` models
`return true` with `value = v`, `some none` models `return false`, and
`none` means the lookup loop did not terminate. -/
def lookup (m : Hashmap K V) (hash : Nat) (key : K) : Option (Option V) :=
  match m.lookupPos (_hash hash) key with
  | none => none
  | some (true, pos) => some (some (m.values.getD pos default))
  | some (false, _) => some none

/-- `hashmap::get`: calls `lookup(_hash(hash), key, value)` and returns
`value`, which is left at its indeterminate initial contents (modelled by
`default`) when the entry is not found. -/
def get (m : Hashmap K V) (hash : Nat) (key : K) : Option V :=
  match m.lookup (_hash hash) key with
  | none => none
  | some (some v) => some v
  | some none => some default

/-- `hashmap::remove`: normalize, find the slot; when found, set the
slot's `DELETED_HASH_BIT` (`hashes[pos] |= DELETED_HASH_BIT`) and decrement
`m_num_elements`; keys and values are left in place. -/
def remove (m : Hashmap K V) (hash : Nat) (key : K) : Option (Hashmap K V) :=
  match m.lookupPos (_hash hash) key with
  | none => none
  | some (false, _) => some m
  | some (true, pos) =>
    some { m with hashes := m.hashes.set pos (m.hashes.getD pos 0 ||| DELETED_HASH_BIT),
                  numElements := m.numElements - 1 }

/-- The scan of `hashmap::iter_next`: the first position `i` in
`[offset, capacity)` whose slot is neither empty nor deleted, together with
that slot's key and value. -/
def iterNextAux (m : Hashmap K V) (i : Nat) : Option (Nat × K × V) :=
  if h : i < m.capacity then
    if m.hashes.getD i 0 = EMPTY_HASH then m.iterNextAux (i + 1)
    else if (m.hashes.getD i 0).testBit 31 then m.iterNextAux (i + 1)
    else some (i, m.keys.getD i default, m.values.getD i default)
  else none
termination_by m.capacity - i
decreasing_by all_goals omega

/-- `hashmap::iter_next`: scan forward from `iter.offset`; on the first
live slot return its key/value and advance the cursor past it; when the
scan reaches `capacity`, return false and leave the cursor untouched. -/
def iterNext (m : Hashmap K V) (offset : Nat) : Nat × Option (K × V) :=
  match m.iterNextAux offset with
  | some (i, k, v) => (i + 1, some (k, v))
  | none => (offset, none)

/-- `hashmap::copy`: create a fresh map over the new buffer, then raw-insert
every live (non-empty, non-deleted) slot of the source. -/
def copy (m : Hashmap K V) (keySize valSize bufferSize : Nat) (k0 : K) (v0 : V) :
    Option (Hashmap K V) :=
  (List.range m.capacity).foldlM
    (fun acc i =>
      if m.hashes.getD i 0 = EMPTY_HASH then some acc
      else if (m.hashes.getD i 0).testBit 31 then some acc
      else acc.insert (m.hashes.getD i 0) (m.keys.getD i default) (m.values.getD i default))
    (create keySize valSize bufferSize k0 v0)

/-- A sequence of `set` calls, failing as soon as one of them fails to
terminate. -/
def setList (m : Hashmap K V) (ops : List (Nat × K × V)) : Option (Hashmap K V) :=
  ops.foldlM (fun acc op => acc.set op.1 op.2.1 op.2.2) m

end Hashmap

/-- The state of a `cf::hashset<T>`: two parallel regions `hashes` and
`values` plus the metadata fields. -/
structure Hashset (T : Type) where
  numElements : Nat
  capacity : Nat
  hashes : List Nat
  values : List T
  deriving DecidableEq

namespace Hashset

variable {T : Type} [DecidableEq T] [Inhabited T]

/-- `hashset::_hash`, identical to `hashmap::_hash`. -/
def _hash (hash : Nat) : Nat :=
  let h := hash % U32
  if h = EMPTY_HASH then EMPTY_HASH + 1
  else if h.testBit 31 then h % DELETED_HASH_BIT
  else h

/-- `hashset::_get_probe_distance`, identical to the map version. -/
def _get_probe_distance (s : Hashset T) (pos hash : Nat) : Nat :=
  let h := hash % DELETED_HASH_BIT
  let ideal_pos := h % s.capacity
  (pos + U32 - ideal_pos) % U32

/-- Step-indexed semantics of `hashset::_lookup_pos`.  In contrast to the
map, the set's loop is guarded by `distance < m_capacity` and returns
`false` when the guard fails. -/
def lookupPosAux (s : Hashset T) (hash : Nat) (value : T) :
    Nat → Nat → Nat → Option (Bool × Nat)
  | _, _, 0 => none
  | pos, distance, fuel + 1 =>
    if distance < s.capacity then
      if s.hashes.getD pos 0 = EMPTY_HASH then some (false, pos)
      else if s._get_probe_distance pos (s.hashes.getD pos 0) < distance then
        some (false, pos)
      else if s.hashes.getD pos 0 = hash ∧ s.values.get? pos = some value then
        some (true, pos)
      else lookupPosAux s hash value ((pos + 1) % s.capacity) ((distance + 1) % U32) fuel
    else some (false, pos)

/-- `hashset::_lookup_pos`; `capacity + 1` loop-head evaluations always
suffice because of the `distance < m_capacity` guard
(`lookupPosAux_total` below). -/
def lookupPos (s : Hashset T) (hash : Nat) (value : T) : Option (Bool × Nat) :=
  lookupPosAux s hash value (hash % s.capacity) 0 (s.capacity + 1)

/-- Step-indexed semantics of the loop of the private `hashset::_insert`
(the code after the full-table guard); the loop itself is also guarded by
`distance < m_capacity` and silently gives up when the guard fails. -/
def insertAux : Hashset T → Nat → T → Nat → Nat → Nat → Option (Hashset T)
  | _, _, _, _, _, 0 => none
  | s, hash, value, pos, distance, fuel + 1 =>
    if distance < s.capacity then
      if s.hashes.getD pos 0 = EMPTY_HASH then
        some { s with hashes := s.hashes.set pos hash,
                      values := s.values.set pos value,
                      numElements := s.numElements + 1 }
      else
        let exiting_distance := s._get_probe_distance pos (s.hashes.getD pos 0)
        if exiting_distance < distance then
          if (s.hashes.getD pos 0).testBit 31 then
            some { s with hashes := s.hashes.set pos hash,
                          values := s.values.set pos value,
                          numElements := s.numElements + 1 }
          else
            insertAux { s with hashes := s.hashes.set pos hash,
                               values := s.values.set pos value }
              (s.hashes.getD pos 0) (s.values.getD pos default)
              ((pos + 1) % s.capacity) ((exiting_distance + 1) % U32) fuel
        else
          insertAux s hash value ((pos + 1) % s.capacity) ((distance + 1) % U32) fuel
    else some s

/-- `hashset::_insert` (the raw insertion primitive): **unlike the map**, it
first checks `m_num_elements == m_capacity` and returns immediately in that
case ("this will just keep trying to swap stuff around, never
terminating"). -/
def _insert (s : Hashset T) (hash : Nat) (value : T) : Option (Hashset T) :=
  if s.numElements = s.capacity then some s
  else insertAux s hash value (hash % s.capacity) 0 (s.capacity + 1)

/-- `hashset::create`. -/
def create (valSize bufferSize : Nat) (v0 : T) : Hashset T :=
  let capacity := bufferSize / (valSize + 4)
  { numElements := 0
    capacity := capacity
    hashes := List.replicate capacity EMPTY_HASH
    values := List.replicate capacity v0 }

/-- The scan of `hashset::iter_next`. -/
def iterNextAux (s : Hashset T) (i : Nat) : Option (Nat × T) :=
  if h : i < s.capacity then
    if s.hashes.getD i 0 = EMPTY_HASH then s.iterNextAux (i + 1)
    else if (s.hashes.getD i 0).testBit 31 then s.iterNextAux (i + 1)
    else some (i, s.values.getD i default)
  else none
termination_by s.capacity - i
decreasing_by all_goals omega

/-- `hashset::iter_next`: like the map's, leaving the cursor untouched
when the scan is exhausted. -/
def iterNext (s : Hashset T) (offset : Nat) : Nat × Option T :=
  match s.iterNextAux offset with
  | some (i, v) => (i + 1, some v)
  | none => (offset, none)

end Hashset

/-- The state of a `cf::memorypool<T, IndexType>`: the buffer is an array of
`capacity` unions of a `T` and a free-list index; only the index view
(`nexts`) is modelled, and an allocation returns the slot index (the C
pointer `&m_buffer[index].value` is determined by it). -/
structure Memorypool where
  numElements : Nat
  capacity : Nat
  nextFree : Nat
  nexts : List Nat
  deriving DecidableEq

namespace Memorypool

/-- `memorypool::create`: capacity is `buffer_size / sizeof(element_t)`
with `sizeof(element_t) = max(sizeof(T), sizeof(IndexType))`; slot `i`'s
free-list link is initialized to `(i + 1) % capacity` and `next_free`
to 0. -/
def create (elemSize idxSize bufferSize : Nat) : Memorypool :=
  let capacity := bufferSize / max elemSize idxSize
  { numElements := 0
    capacity := capacity
    nextFree := 0
    nexts := (List.range capacity).map (fun i => (i + 1) % capacity) }

/-- `memorypool::allocate`: fail when full; otherwise hand out slot
`next_free`, splice the second free node out of the list, and advance
`next_free`. -/
def allocate (p : Memorypool) : Option (Nat × Memorypool) :=
  if p.numElements = p.capacity then none
  else
    let new_next_free := p.nexts.getD p.nextFree 0
    let old_next_free := p.nextFree
    some (old_next_free,
      { p with nexts := p.nexts.set p.nextFree (p.nexts.getD new_next_free 0),
               numElements := p.numElements + 1,
               nextFree := new_next_free })

/-- `memorypool::free`: push the slot back onto the free list and decrement
the element count. -/
def free (p : Memorypool) (index : Nat) : Memorypool :=
  { p with nexts := p.nexts.set index p.nextFree,
           nextFree := index,
           numElements := p.numElements - 1 }

end Memorypool

/-! ## List access helpers -/

theorem listGet?Set_self {α : Type _} (l : List α) (i : Nat) (a : α)
    (h : i < l.length) : (l.set i a).get? i = some a := by
  induction l generalizing i with
  | nil => simp at h
  | cons x xs ih =>
    cases i with
    | zero => rfl
    | succ j => simpa using ih j (by simpa using h)

theorem listGet?Set_ne {α : Type _} (l : List α) (i j : Nat) (a : α)
    (h : i ≠ j) : (l.set i a).get? j = l.get? j := by
  induction l generalizing i j with
  | nil => rfl
  | cons x xs ih =>
    cases i with
    | zero => cases j with
      | zero => exact absurd rfl h
      | succ j' => rfl
    | succ i' => cases j with
      | zero => rfl
      | succ j' => simpa using ih i' j' (by omega)

theorem listGetD_eq_get? {α : Type _} (l : List α) (i : Nat) (d : α) :
    l.getD i d = (l.get? i).getD d := by
  induction l generalizing i with
  | nil => rfl
  | cons x xs ih =>
    cases i with
    | zero => rfl
    | succ j => simpa using ih j

theorem listGetD_set_self {α : Type _} (l : List α) (i : Nat) (a d : α)
    (h : i < l.length) : (l.set i a).getD i d = a := by
  rw [listGetD_eq_get?, listGet?Set_self l i a h]; rfl

theorem listGetD_set_ne {α : Type _} (l : List α) (i j : Nat) (a d : α)
    (h : i ≠ j) : (l.set i a).getD j d = l.getD j d := by
  rw [listGetD_eq_get?, listGet?Set_ne l i j a h, listGetD_eq_get?]

theorem listGet?_eq_some_getD {α : Type _} (l : List α) (i : Nat) (d : α)
    (h : i < l.length) : l.get? i = some (l.getD i d) := by
  rw [listGetD_eq_get?]
  cases hq : l.get? i with
  | none => exact absurd (List.get?_eq_none.mp hq) (by omega)
  | some a => rfl

theorem listCountP_set {α : Type _} (p : α → Bool) (l : List α) (i : Nat) (a b : α)
    (h : l.get? i = some b) :
    (l.set i a).countP p + (if p b then 1 else 0)
      = l.countP p + (if p a then 1 else 0) := by
  induction l generalizing i with
  | nil => simp at h
  | cons x xs ih =>
    cases i with
    | zero =>
      obtain rfl : x = b := by simpa using h
      simp only [List.set, List.countP_cons]
      rcases hpa : p a <;> rcases hpx : p x <;> simp [hpa, hpx] <;> omega
    | succ j =>
      have := ih j (by simpa using h)
      simp only [List.set, List.countP_cons]
      rcases hpx : p x <;> simp [hpx] <;> omega

theorem listCountP_pos_iff {α : Type _} (p : α → Bool) (l : List α) :
    0 < l.countP p ↔ ∃ i, i < l.length ∧ ∃ a, l.get? i = some a ∧ p a := by
  constructor
  · intro h
    rcases List.countP_pos_iff.mp h with ⟨a, ha, hpa⟩
    rcases List.get_of_mem ha with ⟨⟨i, hi⟩, rfl⟩
    exact ⟨i, hi, _, List.get?_eq_get hi, hpa⟩
  · rintro ⟨i, hi, a, hget, hpa⟩
    exact List.countP_pos_iff.mpr ⟨a, List.get?_mem hget, hpa⟩

/-! ## Modular arithmetic helpers -/

/-- Forward circular offset from `s` to `p` in a table of `cap` slots. -/
def off (cap s p : Nat) : Nat := (p + cap - s) % cap

theorem off_lt (cap s p : Nat) (h : 0 < cap) : off cap s p < cap :=
  Nat.mod_lt _ h

theorem add_mod_left_cancel {cap s a b : Nat} (ha : a < cap) (hb : b < cap)
    (h : (s + a) % cap = (s + b) % cap) : a = b := by
  have h1 : s + a ≡ s + b [MOD cap] := h
  have h2 : a ≡ b [MOD cap] := Nat.ModEq.add_left_cancel' s h1
  have h3 : a % cap = b % cap := h2
  rwa [Nat.mod_eq_of_lt ha, Nat.mod_eq_of_lt hb] at h3

theorem add_off_mod {cap s p : Nat} (hs : s < cap) (hp : p < cap) :
    (s + off cap s p) % cap = p := by
  unfold off
  have h2 : (s + (p + cap - s) % cap) % cap = (s + (p + cap - s)) % cap :=
    (Nat.mod_modEq (p + cap - s) cap).add_left s
  rw [h2, show s + (p + cap - s) = p + cap by omega, Nat.add_mod_right,
    Nat.mod_eq_of_lt hp]

theorem off_add {cap s d : Nat} (hs : s < cap) :
    off cap s ((s + d) % cap) = d % cap := by
  have hcap : 0 < cap := by omega
  apply @add_mod_left_cancel cap s _ _ (off_lt _ _ _ hcap) (Nat.mod_lt _ hcap)
  rw [add_off_mod hs (Nat.mod_lt _ hcap)]
  exact ((Nat.mod_modEq d cap).add_left s).symm

theorem step_mod (cap s t : Nat) :
    ((s + t) % cap + 1) % cap = (s + (t + 1)) % cap := by
  have h2 : ((s + t) % cap + 1) % cap = (s + t + 1) % cap :=
    (Nat.mod_modEq (s + t) cap).add_right 1
  rw [h2, Nat.add_assoc]

/-! ## Table invariants (hashmap) -/

namespace Hashmap

variable {K V : Type} [DecidableEq K] [Inhabited K] [Inhabited V]

/-- The stored hash of slot `i` (0 outside the table). -/
def hget (m : Hashmap K V) (i : Nat) : Nat := m.hashes.getD i 0

/-- Slot `i` is LIVE: inside the table, not empty, deleted bit clear.
(For `uint32` hashes "bit 31 clear" is `< 2^31`.) -/
def LiveAt (m : Hashmap K V) (i : Nat) : Prop :=
  i < m.capacity ∧ m.hget i ≠ 0 ∧ m.hget i < DELETED_HASH_BIT

instance (m : Hashmap K V) (i : Nat) : Decidable (m.LiveAt i) := by
  unfold LiveAt; infer_instance

/-- The ideal position of the hash stored in slot `i` (deleted bit masked
off, as `_get_probe_distance` does). -/
def idealAt (m : Hashmap K V) (i : Nat) : Nat :=
  (m.hget i % DELETED_HASH_BIT) % m.capacity

/-- The probe distance the code computes for slot `i`'s resident. -/
def pdAt (m : Hashmap K V) (i : Nat) : Nat :=
  m._get_probe_distance i (m.hget i)

/-- The first `d` probe-path slots starting at ideal position `s` are all
occupied and rich enough: slot `(s + t) % capacity` is non-empty and its
probe distance is at least `t`.  This is exactly the property that keeps
`_lookup_pos` walking (neither the empty-slot exit nor the robin-hood
early exit fires before step `d`). -/
def PathOk (m : Hashmap K V) (s d : Nat) : Prop :=
  ∀ t, t < d → m.hget ((s + t) % m.capacity) ≠ 0 ∧ t ≤ m.pdAt ((s + t) % m.capacity)

instance (m : Hashmap K V) (s d : Nat) : Decidable (m.PathOk s d) := by
  unfold PathOk; infer_instance

/-- The robin-hood reachability invariant: every LIVE slot can be reached
from its ideal position without triggering an exit of `_lookup_pos`. -/
def ProbeInv (m : Hashmap K V) : Prop :=
  ∀ q, q < m.capacity → m.LiveAt q →
    m.PathOk (m.idealAt q) (off m.capacity (m.idealAt q) q)

instance (m : Hashmap K V) : Decidable (m.ProbeInv) := by
  unfold ProbeInv; infer_instance

/-- A value the hash region can contain: the empty sentinel, a live
normalized hash, or a tombstone (deleted bit plus a nonzero live part). -/
def HashOk (h : Nat) : Prop :=
  h = 0 ∨ (0 < h ∧ h < DELETED_HASH_BIT) ∨ (DELETED_HASH_BIT < h ∧ h < U32)

/-- All stored hashes are of the shape the operations can produce. -/
instance (h : Nat) : Decidable (HashOk h) := by
  unfold HashOk
  infer_instance

def HashesOk (m : Hashmap K V) : Prop := ∀ h ∈ m.hashes, HashOk h

instance (m : Hashmap K V) : Decidable m.HashesOk := by
  unfold HashesOk
  infer_instance

/-- The three regions have exactly `capacity` slots. -/
def Wf (m : Hashmap K V) : Prop :=
  m.hashes.length = m.capacity ∧ m.keys.length = m.capacity ∧
    m.values.length = m.capacity

instance (m : Hashmap K V) : Decidable m.Wf := by
  unfold Wf
  infer_instance

/-- No two LIVE slots carry the same (hash, key) pair. -/
def PairInj (m : Hashmap K V) : Prop :=
  ∀ i j, m.LiveAt i → m.LiveAt j → m.hget i = m.hget j →
    m.keys.get? i = m.keys.get? j → i = j

/-- No LIVE slot carries the (hash, key) pair. -/
def FreshPair (m : Hashmap K V) (h : Nat) (k : K) : Prop :=
  ∀ i, m.LiveAt i → ¬(m.hget i = h ∧ m.keys.get? i = some k)

/-- Some LIVE slot stores exactly the triple `(h, k, v)`. -/
def MemLive (m : Hashmap K V) (h : Nat) (k : K) (v : V) : Prop :=
  ∃ i, m.LiveAt i ∧ m.hget i = h ∧ m.keys.get? i = some k ∧
    m.values.get? i = some v

/-- Number of LIVE slots. -/
def liveCount (m : Hashmap K V) : Nat :=
  m.hashes.countP (fun x => decide (x ≠ 0 ∧ x < DELETED_HASH_BIT))

/-- Number of EMPTY slots. -/
def emptyCount (m : Hashmap K V) : Nat :=
  m.hashes.countP (fun x => x == 0)

/-- The invariant package every table built by the API (with hashes not
normalizing to 0) satisfies. -/
def Inv (m : Hashmap K V) : Prop :=
  m.Wf ∧ m.HashesOk ∧ m.ProbeInv ∧ m.PairInj ∧ m.capacity ≤ DELETED_HASH_BIT

end Hashmap

theorem U32_eq : U32 = 4294967296 := by norm_num [U32]

theorem EMPTY_HASH_eq : EMPTY_HASH = 0 := rfl

theorem DELETED_HASH_BIT_eq : DELETED_HASH_BIT = 2147483648 := by
  norm_num [DELETED_HASH_BIT]

/-! ## Probe-distance arithmetic -/

namespace Hashmap

variable {K V : Type} [DecidableEq K] [Inhabited K] [Inhabited V]

/-- `_get_probe_distance`, lets unfolded. -/
theorem pd_def (m : Hashmap K V) (pos h : Nat) :
    m._get_probe_distance pos h
      = (pos + U32 - (h % DELETED_HASH_BIT) % m.capacity) % U32 := rfl

/-- `_get_probe_distance` when the (masked) ideal position does not exceed
`pos`: the plain difference. -/
theorem pd_eq_of_le (m : Hashmap K V) (pos h : Nat) (hpos : pos < m.capacity)
    (hcap : m.capacity ≤ DELETED_HASH_BIT)
    (hs : (h % DELETED_HASH_BIT) % m.capacity ≤ pos) :
    m._get_probe_distance pos h = pos - (h % DELETED_HASH_BIT) % m.capacity := by
  rw [pd_def]
  have hd := DELETED_HASH_BIT_eq
  have hu := U32_eq
  have h1 : pos + U32 - (h % DELETED_HASH_BIT) % m.capacity
      = U32 + (pos - (h % DELETED_HASH_BIT) % m.capacity) := by omega
  rw [h1, Nat.add_mod_left, Nat.mod_eq_of_lt (by omega)]

/-- `_get_probe_distance` when the resident is "wrapped" (ideal position
beyond `pos`): a huge value, at least `U32 - capacity`. -/
theorem pd_ge_of_gt (m : Hashmap K V) (pos h : Nat) (hpos : pos < m.capacity)
    (hcap : m.capacity ≤ DELETED_HASH_BIT)
    (hs : pos < (h % DELETED_HASH_BIT) % m.capacity) :
    U32 - m.capacity ≤ m._get_probe_distance pos h := by
  rw [pd_def]
  have hd := DELETED_HASH_BIT_eq
  have hu := U32_eq
  have hsc : (h % DELETED_HASH_BIT) % m.capacity < m.capacity :=
    Nat.mod_lt _ (by omega)
  rw [Nat.mod_eq_of_lt (by omega)]
  omega

/-- A probe distance smaller than the capacity determines the slot exactly:
`pos = ideal + pd`. -/
theorem pd_lt_cap_spec (m : Hashmap K V) (pos h : Nat) (hpos : pos < m.capacity)
    (hcap : m.capacity ≤ DELETED_HASH_BIT)
    (hlt : m._get_probe_distance pos h < m.capacity) :
    (h % DELETED_HASH_BIT) % m.capacity ≤ pos ∧
      pos = (h % DELETED_HASH_BIT) % m.capacity + m._get_probe_distance pos h := by
  have hd := DELETED_HASH_BIT_eq
  have hu := U32_eq
  rcases le_or_lt ((h % DELETED_HASH_BIT) % m.capacity) pos with hle | hgt
  · have := m.pd_eq_of_le pos h hpos hcap hle
    exact ⟨hle, by omega⟩
  · have := m.pd_ge_of_gt pos h hpos hcap hgt
    omega

/-- The circular offset from the ideal position to the slot never exceeds
the probe distance the code computes. -/
theorem off_le_pd (m : Hashmap K V) (pos h : Nat) (hpos : pos < m.capacity)
    (hcap : m.capacity ≤ DELETED_HASH_BIT) :
    off m.capacity ((h % DELETED_HASH_BIT) % m.capacity) pos
      ≤ m._get_probe_distance pos h := by
  have hd := DELETED_HASH_BIT_eq
  have hu := U32_eq
  have hsc : (h % DELETED_HASH_BIT) % m.capacity < m.capacity :=
    Nat.mod_lt _ (by omega)
  rcases le_or_lt ((h % DELETED_HASH_BIT) % m.capacity) pos with hle | hgt
  · rw [m.pd_eq_of_le pos h hpos hcap hle]
    unfold off
    have h1 : pos + m.capacity - (h % DELETED_HASH_BIT) % m.capacity
        = (pos - (h % DELETED_HASH_BIT) % m.capacity) + m.capacity := by omega
    rw [h1, Nat.add_mod_right, Nat.mod_eq_of_lt (by omega)]
  · have h2 := m.pd_ge_of_gt pos h hpos hcap hgt
    have h3 : off m.capacity ((h % DELETED_HASH_BIT) % m.capacity) pos < m.capacity :=
      off_lt _ _ _ (by omega)
    omega

/-! ## Termination of the probe loops -/

/-- Phase 1 of the termination argument for `hashmap::_lookup_pos`: once
enough distance has accumulated that slot `capacity - 1` will be reached
with distance at least `capacity`, the loop must stop there, because that
slot's probe distance is at most `capacity - 1`. -/
theorem lookupPosAux_isSome_A (m : Hashmap K V) (h : Nat) (key : K) :
    ∀ fuel pos d, pos < m.capacity → m.capacity ≤ DELETED_HASH_BIT →
      m.capacity ≤ d + (m.capacity - 1 - pos) →
      (m.capacity - 1 - pos) + 1 ≤ fuel → d + fuel ≤ U32 →
      (lookupPosAux m h key pos d fuel).isSome := by
  intro fuel
  induction fuel with
  | zero => intro pos d _ _ _ hf _; omega
  | succ n ih =>
    intro pos d hpos hcap hacc hf hu
    simp only [lookupPosAux, ← List.getD_eq_getElem?_getD]
    split
    · simp
    · split
      · simp
      · split
        · simp
        · rename_i hne hpd hmatch
          rcases Nat.lt_or_ge pos (m.capacity - 1) with hlt | hge
          · have hmod1 : (pos + 1) % m.capacity = pos + 1 :=
              Nat.mod_eq_of_lt (by omega)
            have hmod2 : (d + 1) % U32 = d + 1 := by
              have := U32_eq; exact Nat.mod_eq_of_lt (by omega)
            rw [hmod1, hmod2]
            exact ih (pos + 1) (d + 1) (by omega) hcap (by omega) (by omega)
              (by omega)
          · exfalso
            have hpose : pos = m.capacity - 1 := by omega
            have hs : (m.hashes.getD pos 0 % DELETED_HASH_BIT) % m.capacity ≤ pos := by
              have : (m.hashes.getD pos 0 % DELETED_HASH_BIT) % m.capacity
                  < m.capacity := Nat.mod_lt _ (by omega)
              omega
            have heq := m.pd_eq_of_le pos (m.hashes.getD pos 0) hpos hcap hs
            have hd2 : d ≤ m._get_probe_distance pos (m.hashes.getD pos 0) := by
              omega
            omega

/-- Phase 0: from an arbitrary start, reaching slot `capacity - 1` once and
then applying phase 1 bounds the loop of `hashmap::_lookup_pos` by
`2 * capacity` iterations in total. -/
theorem lookupPosAux_isSome_B (m : Hashmap K V) (h : Nat) (key : K) :
    ∀ fuel pos d, pos < m.capacity → m.capacity ≤ DELETED_HASH_BIT →
      (m.capacity - 1 - pos) + m.capacity + 1 ≤ fuel → d + fuel ≤ U32 →
      (lookupPosAux m h key pos d fuel).isSome := by
  intro fuel
  induction fuel with
  | zero => intro pos d _ _ hf _; omega
  | succ n ih =>
    intro pos d hpos hcap hf hu
    simp only [lookupPosAux, ← List.getD_eq_getElem?_getD]
    split
    · simp
    · split
      · simp
      · split
        · simp
        · rename_i hne hpd hmatch
          have hmod2 : (d + 1) % U32 = d + 1 := by
            have := U32_eq; exact Nat.mod_eq_of_lt (by omega)
          rcases Nat.lt_or_ge pos (m.capacity - 1) with hlt | hge
          · have hmod1 : (pos + 1) % m.capacity = pos + 1 :=
              Nat.mod_eq_of_lt (by omega)
            rw [hmod1, hmod2]
            exact ih (pos + 1) (d + 1) (by omega) hcap (by omega) (by omega)
          · have hpose : pos = m.capacity - 1 := by omega
            have hmod1 : (pos + 1) % m.capacity = 0 := by
              rw [show pos + 1 = m.capacity by omega, Nat.mod_self]
            rw [hmod1, hmod2]
            exact lookupPosAux_isSome_A m h key n 0 (d + 1) (by omega) hcap
              (by omega) (by omega) (by omega)

/-- `hashmap::_lookup_pos` always terminates: `2 * capacity` iterations of
the unbounded `while (42)` loop suffice for any table contents. -/
theorem lookupPos_total (m : Hashmap K V) (h : Nat) (key : K)
    (hcap0 : 0 < m.capacity) (hcap : m.capacity ≤ DELETED_HASH_BIT) :
    (m.lookupPos h key).isSome := by
  unfold lookupPos
  have hu := U32_eq
  have hd := DELETED_HASH_BIT_eq
  exact lookupPosAux_isSome_B m h key (2 * m.capacity) (h % m.capacity) 0
    (Nat.mod_lt _ hcap0) hcap (by omega) (by omega)

/-- If an empty slot sits `e` steps ahead of the current position (with
only non-empty slots before it), `hashmap::insert` reaches it within `e`
more iterations (swaps do not move or empty any slot other than the one
being probed). -/
theorem insertAux_isSome :
    ∀ e (m : Hashmap K V) h k v pos d fuel, pos < m.capacity →
      e < m.capacity →
      m.hget ((pos + e) % m.capacity) = 0 →
      (∀ t, t < e → m.hget ((pos + t) % m.capacity) ≠ 0) →
      e + 1 ≤ fuel →
      (insertAux m h k v pos d fuel).isSome := by
  intro e
  induction e with
  | zero =>
    intro m h k v pos d fuel hpos _ hempty _ hf
    rcases fuel with _ | n
    · omega
    · have h0 : (pos + 0) % m.capacity = pos := by
        rw [Nat.add_zero, Nat.mod_eq_of_lt hpos]
      rw [h0] at hempty
      simp only [hget, List.getD_eq_getElem?_getD] at hempty
      simp only [insertAux]
      simp [hempty, EMPTY_HASH]
  | succ e ih =>
    intro m h k v pos d fuel hpos he hempty hocc hf
    rcases fuel with _ | n
    · omega
    · have hcap0 : 0 < m.capacity := by omega
      have h0 : (pos + 0) % m.capacity = pos := by
        rw [Nat.add_zero, Nat.mod_eq_of_lt hpos]
      have hposne : m.hget pos ≠ 0 := by
        have := hocc 0 (by omega); rwa [h0] at this
      have hstep : ∀ x : Nat, ((pos + 1) % m.capacity + x) % m.capacity
          = (pos + (x + 1)) % m.capacity := by
        intro x
        have h1 : ((pos + 1) % m.capacity + x) % m.capacity
            = (pos + 1 + x) % m.capacity :=
          (Nat.mod_modEq (pos + 1) m.capacity).add_right x
        rw [h1, Nat.add_assoc, Nat.add_comm 1 x]
      have hslotne : ∀ t, t + 1 < m.capacity →
          (pos + (t + 1)) % m.capacity ≠ pos := by
        intro t ht hcontra
        have h2 : (pos + (t + 1)) % m.capacity = (pos + 0) % m.capacity := by
          rw [h0]; exact hcontra
        have h3 : t + 1 = 0 :=
          @add_mod_left_cancel m.capacity pos (t + 1) 0 ht hcap0 h2
        omega
      -- the slot `e + 1` steps ahead, seen from `pos + 1`, is `e` steps ahead
      have hemptyStep : ∀ (l : List Nat),
          (∀ j, j ≠ pos → l.getD j 0 = m.hashes.getD j 0) →
          l.getD (((pos + 1) % m.capacity + e) % m.capacity) 0 = 0 := by
        intro l hl
        rw [hstep e, hl _ (hslotne e (by omega))]
        exact hempty
      have hoccStep : ∀ (l : List Nat),
          (∀ j, j ≠ pos → l.getD j 0 = m.hashes.getD j 0) →
          ∀ t, t < e → l.getD (((pos + 1) % m.capacity + t) % m.capacity) 0 ≠ 0 := by
        intro l hl t ht
        rw [hstep t, hl _ (hslotne t (by omega))]
        exact hocc (t + 1) (by omega)
      simp only [insertAux]
      split
      · simp
      · split
        · split
          · simp
          · -- swap branch: recurse on the modified table
            refine ih _ _ _ _ ((pos + 1) % m.capacity) _ n
              (Nat.mod_lt _ hcap0) (by show e < m.capacity; omega) ?_ ?_ (by omega)
            · exact hemptyStep _ (fun j hj =>
                listGetD_set_ne m.hashes pos j h 0 (fun hc => hj hc.symm))
            · exact hoccStep _ (fun j hj =>
                listGetD_set_ne m.hashes pos j h 0 (fun hc => hj hc.symm))
        · -- advance branch: same table, next position
          refine ih _ _ _ _ ((pos + 1) % m.capacity) _ n
            (Nat.mod_lt _ hcap0) (by omega) ?_ ?_ (by omega)
          · exact hemptyStep _ (fun j hj => rfl)
          · exact hoccStep _ (fun j hj => rfl)

/-- `hashmap::insert` terminates (in at most `capacity` iterations)
whenever the table contains an empty slot. -/
theorem insert_total (m : Hashmap K V) (h : Nat) (k : K) (v : V)
    (hcap0 : 0 < m.capacity) (hempty : ∃ i, i < m.capacity ∧ m.hget i = 0) :
    (m.insert h k v).isSome := by
  classical
  obtain ⟨i, hi, hz⟩ := hempty
  have hpos : h % m.capacity < m.capacity := Nat.mod_lt _ hcap0
  have hP : ∃ t, m.hget ((h % m.capacity + t) % m.capacity) = 0 :=
    ⟨off m.capacity (h % m.capacity) i, by rwa [add_off_mod hpos hi]⟩
  have he := Nat.find_spec hP
  have hmin : ∀ t, t < Nat.find hP →
      m.hget ((h % m.capacity + t) % m.capacity) ≠ 0 :=
    fun t ht => Nat.find_min hP ht
  have hlt : Nat.find hP < m.capacity := by
    have h1 : Nat.find hP ≤ off m.capacity (h % m.capacity) i :=
      Nat.find_min' hP (by rwa [add_off_mod hpos hi])
    have h2 := off_lt m.capacity (h % m.capacity) i hcap0
    omega
  exact insertAux_isSome (Nat.find hP) m h k v (h % m.capacity) 0 m.capacity
    hpos hlt he hmin (by omega)

/-! ## The effect of one slot write -/

/-- The three parallel writes `hashes[pos] = hash; keys[pos] = key;
values[pos] = value` that `insert` performs both when placing and when
swapping. -/
def writeSlot (m : Hashmap K V) (pos hash : Nat) (key : K) (value : V) :
    Hashmap K V :=
  { m with hashes := m.hashes.set pos hash,
           keys := m.keys.set pos key,
           values := m.values.set pos value }

theorem writeSlot_capacity (m : Hashmap K V) (pos h : Nat) (k : K) (v : V) :
    (m.writeSlot pos h k v).capacity = m.capacity := rfl

theorem writeSlot_Wf (m : Hashmap K V) (pos h : Nat) (k : K) (v : V)
    (hWf : m.Wf) : (m.writeSlot pos h k v).Wf := by
  obtain ⟨h1, h2, h3⟩ := hWf
  exact ⟨by simp [writeSlot, h1], by simp [writeSlot, h2], by simp [writeSlot, h3]⟩

theorem hget_writeSlot_self (m : Hashmap K V) (pos h : Nat) (k : K) (v : V)
    (hWf : m.Wf) (hpos : pos < m.capacity) :
    (m.writeSlot pos h k v).hget pos = h :=
  listGetD_set_self _ _ _ _ (by rw [hWf.1]; exact hpos)

theorem hget_writeSlot_ne (m : Hashmap K V) (pos h : Nat) (k : K) (v : V)
    (j : Nat) (hne : j ≠ pos) :
    (m.writeSlot pos h k v).hget j = m.hget j :=
  listGetD_set_ne _ _ _ _ _ (fun hc => hne hc.symm)

theorem keys_writeSlot_self (m : Hashmap K V) (pos h : Nat) (k : K) (v : V)
    (hWf : m.Wf) (hpos : pos < m.capacity) :
    (m.writeSlot pos h k v).keys.get? pos = some k :=
  listGet?Set_self _ _ _ (by rw [hWf.2.1]; exact hpos)

theorem keys_writeSlot_ne (m : Hashmap K V) (pos h : Nat) (k : K) (v : V)
    (j : Nat) (hne : j ≠ pos) :
    (m.writeSlot pos h k v).keys.get? j = m.keys.get? j :=
  listGet?Set_ne _ _ _ _ (fun hc => hne hc.symm)

theorem values_writeSlot_self (m : Hashmap K V) (pos h : Nat) (k : K) (v : V)
    (hWf : m.Wf) (hpos : pos < m.capacity) :
    (m.writeSlot pos h k v).values.get? pos = some v :=
  listGet?Set_self _ _ _ (by rw [hWf.2.2]; exact hpos)

theorem values_writeSlot_ne (m : Hashmap K V) (pos h : Nat) (k : K) (v : V)
    (j : Nat) (hne : j ≠ pos) :
    (m.writeSlot pos h k v).values.get? j = m.values.get? j :=
  listGet?Set_ne _ _ _ _ (fun hc => hne hc.symm)

theorem pdAt_writeSlot_self (m : Hashmap K V) (pos h : Nat) (k : K) (v : V)
    (hWf : m.Wf) (hpos : pos < m.capacity) :
    (m.writeSlot pos h k v).pdAt pos = m._get_probe_distance pos h := by
  unfold pdAt
  rw [hget_writeSlot_self m pos h k v hWf hpos]
  rfl

theorem pdAt_writeSlot_ne (m : Hashmap K V) (pos h : Nat) (k : K) (v : V)
    (j : Nat) (hne : j ≠ pos) :
    (m.writeSlot pos h k v).pdAt j = m.pdAt j := by
  unfold pdAt
  rw [hget_writeSlot_ne m pos h k v j hne]
  rfl

theorem liveAt_writeSlot_ne (m : Hashmap K V) (pos h : Nat) (k : K) (v : V)
    (j : Nat) (hne : j ≠ pos) :
    ((m.writeSlot pos h k v).LiveAt j ↔ m.LiveAt j) := by
  unfold LiveAt
  rw [hget_writeSlot_ne m pos h k v j hne, writeSlot_capacity]

theorem liveAt_writeSlot_self (m : Hashmap K V) (pos h : Nat) (k : K) (v : V)
    (hWf : m.Wf) (hpos : pos < m.capacity) :
    ((m.writeSlot pos h k v).LiveAt pos ↔ (0 < h ∧ h < DELETED_HASH_BIT)) := by
  unfold LiveAt
  rw [hget_writeSlot_self m pos h k v hWf hpos, writeSlot_capacity]
  omega

theorem hashesOk_writeSlot (m : Hashmap K V) (pos h : Nat) (k : K) (v : V)
    (hok : m.HashesOk) (hh : HashOk h) :
    (m.writeSlot pos h k v).HashesOk := by
  intro x hx
  rcases List.mem_or_eq_of_mem_set hx with hmem | rfl
  · exact hok x hmem
  · exact hh

/-- `PathOk` survives a slot write as long as the written hash is non-empty
and the probe distance at the written slot does not shrink (or the slot was
empty, in which case no `PathOk` path crossed it). -/
theorem pathOk_writeSlot (m : Hashmap K V) (pos h : Nat) (k : K) (v : V)
    (s d : Nat) (hWf : m.Wf) (hpos : pos < m.capacity) (hnz : h ≠ 0)
    (hPO : m.PathOk s d)
    (hpd : m.hget pos = 0 ∨ m.pdAt pos ≤ (m.writeSlot pos h k v).pdAt pos) :
    (m.writeSlot pos h k v).PathOk s d := by
  intro t ht
  rcases hPO t ht with ⟨hnz2, hle⟩
  rw [writeSlot_capacity]
  by_cases hj : (s + t) % m.capacity = pos
  · rw [hj] at hnz2 hle ⊢
    rcases hpd with hpd | hpd
    · exact absurd hpd hnz2
    · constructor
      · rw [hget_writeSlot_self m pos h k v hWf hpos]; exact hnz
      · omega
  · rw [hget_writeSlot_ne m pos h k v _ hj, pdAt_writeSlot_ne m pos h k v _ hj]
    exact ⟨hnz2, hle⟩

/-- The LIVE triples after a slot write with a live hash: everything away
from `pos`, plus the written triple. -/
theorem memLive_writeSlot_iff (m : Hashmap K V) (pos h : Nat) (k : K) (v : V)
    (hWf : m.Wf) (hpos : pos < m.capacity)
    (hh : 0 < h ∧ h < DELETED_HASH_BIT) (x : Nat) (y : K) (z : V) :
    (m.writeSlot pos h k v).MemLive x y z ↔
      ((∃ i, i ≠ pos ∧ m.LiveAt i ∧ m.hget i = x ∧ m.keys.get? i = some y ∧
          m.values.get? i = some z) ∨ (x = h ∧ y = k ∧ z = v)) := by
  constructor
  · rintro ⟨i, hlive, hx, hy, hz⟩
    by_cases hi : i = pos
    · subst hi
      right
      rw [hget_writeSlot_self m i h k v hWf hpos] at hx
      rw [keys_writeSlot_self m i h k v hWf hpos] at hy
      rw [values_writeSlot_self m i h k v hWf hpos] at hz
      exact ⟨hx.symm, (Option.some_inj.mp hy).symm, (Option.some_inj.mp hz).symm⟩
    · left
      refine ⟨i, hi, (liveAt_writeSlot_ne m pos h k v i hi).mp hlive, ?_, ?_, ?_⟩
      · rw [← hget_writeSlot_ne m pos h k v i hi]; exact hx
      · rw [← keys_writeSlot_ne m pos h k v i hi]; exact hy
      · rw [← values_writeSlot_ne m pos h k v i hi]; exact hz
  · rintro (⟨i, hi, hlive, hx, hy, hz⟩ | ⟨rfl, rfl, rfl⟩)
    · refine ⟨i, (liveAt_writeSlot_ne m pos h k v i hi).mpr hlive, ?_, ?_, ?_⟩
      · rw [hget_writeSlot_ne m pos h k v i hi]; exact hx
      · rw [keys_writeSlot_ne m pos h k v i hi]; exact hy
      · rw [values_writeSlot_ne m pos h k v i hi]; exact hz
    · exact ⟨pos, (liveAt_writeSlot_self m pos _ _ _ hWf hpos).mpr hh,
        hget_writeSlot_self m pos _ _ _ hWf hpos,
        keys_writeSlot_self m pos _ _ _ hWf hpos,
        values_writeSlot_self m pos _ _ _ hWf hpos⟩

/-- When slot `pos` is not LIVE, "live triples away from `pos`" are just
the live triples. -/
theorem memLiveExcept_of_not_live (m : Hashmap K V) (pos : Nat)
    (hnl : ¬ m.LiveAt pos) (x : Nat) (y : K) (z : V) :
    (∃ i, i ≠ pos ∧ m.LiveAt i ∧ m.hget i = x ∧ m.keys.get? i = some y ∧
        m.values.get? i = some z) ↔ m.MemLive x y z := by
  constructor
  · rintro ⟨i, _, hlive, hx, hy, hz⟩
    exact ⟨i, hlive, hx, hy, hz⟩
  · rintro ⟨i, hlive, hx, hy, hz⟩
    exact ⟨i, fun hc => hnl (hc ▸ hlive), hlive, hx, hy, hz⟩

/-- When slot `pos` is LIVE, the live triples split into those away from
`pos` and the resident triple. -/
theorem memLive_split (m : Hashmap K V) (pos : Nat) (hl : m.LiveAt pos)
    (x : Nat) (y : K) (z : V) :
    m.MemLive x y z ↔
      ((∃ i, i ≠ pos ∧ m.LiveAt i ∧ m.hget i = x ∧ m.keys.get? i = some y ∧
          m.values.get? i = some z) ∨
        (m.hget pos = x ∧ m.keys.get? pos = some y ∧
          m.values.get? pos = some z)) := by
  constructor
  · rintro ⟨i, hlive, hx, hy, hz⟩
    by_cases hi : i = pos
    · subst hi; exact Or.inr ⟨hx, hy, hz⟩
    · exact Or.inl ⟨i, hi, hlive, hx, hy, hz⟩
  · rintro (⟨i, _, hlive, hx, hy, hz⟩ | ⟨hx, hy, hz⟩)
    · exact ⟨i, hlive, hx, hy, hz⟩
    · exact ⟨pos, hl, hx, hy, hz⟩

theorem liveCount_writeSlot (m : Hashmap K V) (pos h : Nat) (k : K) (v : V)
    (hWf : m.Wf) (hpos : pos < m.capacity) :
    (m.writeSlot pos h k v).liveCount
        + (if m.hget pos ≠ 0 ∧ m.hget pos < DELETED_HASH_BIT then 1 else 0)
      = m.liveCount + (if h ≠ 0 ∧ h < DELETED_HASH_BIT then 1 else 0) := by
  have hsrc : m.hashes.get? pos = some (m.hget pos) :=
    listGet?_eq_some_getD _ _ _ (by rw [hWf.1]; exact hpos)
  have := listCountP_set (fun x => decide (x ≠ 0 ∧ x < DELETED_HASH_BIT))
    m.hashes pos h (m.hget pos) hsrc
  unfold liveCount writeSlot
  simp only [decide_eq_true_eq] at this ⊢
  convert this using 2 <;> simp

theorem emptyCount_writeSlot (m : Hashmap K V) (pos h : Nat) (k : K) (v : V)
    (hWf : m.Wf) (hpos : pos < m.capacity) :
    (m.writeSlot pos h k v).emptyCount + (if m.hget pos = 0 then 1 else 0)
      = m.emptyCount + (if h = 0 then 1 else 0) := by
  have hsrc : m.hashes.get? pos = some (m.hget pos) :=
    listGet?_eq_some_getD _ _ _ (by rw [hWf.1]; exact hpos)
  have := listCountP_set (fun x => x == 0) m.hashes pos h (m.hget pos) hsrc
  unfold emptyCount writeSlot
  simp only [beq_iff_eq] at this ⊢
  convert this using 2 <;> simp

theorem idealAt_writeSlot_ne (m : Hashmap K V) (pos h : Nat) (k : K) (v : V)
    (j : Nat) (hne : j ≠ pos) :
    (m.writeSlot pos h k v).idealAt j = m.idealAt j := by
  unfold idealAt
  rw [hget_writeSlot_ne m pos h k v j hne, writeSlot_capacity]

/-- The stored hash of an in-range slot satisfies `HashOk`. -/
theorem hashOk_at (m : Hashmap K V) (pos : Nat) (hok : m.HashesOk)
    (hWf : m.Wf) (hpos : pos < m.capacity) : HashOk (m.hget pos) :=
  hok _ (List.get?_mem (listGet?_eq_some_getD _ _ _ (by rw [hWf.1]; exact hpos)))

end Hashmap

/-- For a `uint32` value, bit 31 is clear exactly when the value is below
`DELETED_HASH_BIT`. -/
theorem testBit31_false_iff (h : Nat) (hlt : h < U32) :
    h.testBit 31 = false ↔ h < DELETED_HASH_BIT := by
  have hu := U32_eq
  have hd := DELETED_HASH_BIT_eq
  rw [Nat.testBit_to_div_mod]
  simp only [decide_eq_false_iff_not]
  rw [show (2 : Nat) ^ 31 = 2147483648 by norm_num]
  omega

/-- For a `uint32` value, bit 31 is set exactly when the value is at least
`DELETED_HASH_BIT`. -/
theorem testBit31_true_iff (h : Nat) (hlt : h < U32) :
    h.testBit 31 = true ↔ DELETED_HASH_BIT ≤ h := by
  have hu := U32_eq
  have hd := DELETED_HASH_BIT_eq
  rw [Nat.testBit_to_div_mod]
  simp only [decide_eq_true_eq]
  rw [show (2 : Nat) ^ 31 = 2147483648 by norm_num]
  omega

namespace Hashmap

variable {K V : Type} [DecidableEq K] [Inhabited K] [Inhabited V]

/-- Writing a fresh (hash, key) pair into a slot keeps live (hash, key)
pairs pairwise distinct. -/
theorem pairInj_writeSlot (m : Hashmap K V) (pos h : Nat) (k : K) (v : V)
    (hWf : m.Wf) (hpos : pos < m.capacity)
    (hPI : m.PairInj) (hFresh : m.FreshPair h k) :
    (m.writeSlot pos h k v).PairInj := by
  intro i j hlivei hlivej hheq hkeq
  by_cases hi : i = pos <;> by_cases hj : j = pos
  · rw [hi, hj]
  · exfalso
    have hjl : m.LiveAt j := (liveAt_writeSlot_ne m pos h k v j hj).mp hlivej
    refine hFresh j hjl ⟨?_, ?_⟩
    · have h5 : (m.writeSlot pos h k v).hget j = m.hget j :=
        hget_writeSlot_ne m pos h k v j hj
      have hh2 : (m.writeSlot pos h k v).hget i = h := by
        rw [hi]; exact hget_writeSlot_self m pos h k v hWf hpos
      show m.hget j = h
      omega
    · have h3 : (m.writeSlot pos h k v).keys.get? j = m.keys.get? j :=
        keys_writeSlot_ne m pos h k v j hj
      have h4 : (m.writeSlot pos h k v).keys.get? i = some k := by
        rw [hi]; exact keys_writeSlot_self m pos h k v hWf hpos
      rw [← h3, ← hkeq, h4]
  · exfalso
    have hil : m.LiveAt i := (liveAt_writeSlot_ne m pos h k v i hi).mp hlivei
    refine hFresh i hil ⟨?_, ?_⟩
    · have h5 : (m.writeSlot pos h k v).hget i = m.hget i :=
        hget_writeSlot_ne m pos h k v i hi
      have hh2 : (m.writeSlot pos h k v).hget j = h := by
        rw [hj]; exact hget_writeSlot_self m pos h k v hWf hpos
      show m.hget i = h
      omega
    · have h3 : (m.writeSlot pos h k v).keys.get? i = m.keys.get? i :=
        keys_writeSlot_ne m pos h k v i hi
      have h4 : (m.writeSlot pos h k v).keys.get? j = some k := by
        rw [hj]; exact keys_writeSlot_self m pos h k v hWf hpos
      rw [← h3, hkeq, h4]
  · have hil : m.LiveAt i := (liveAt_writeSlot_ne m pos h k v i hi).mp hlivei
    have hjl : m.LiveAt j := (liveAt_writeSlot_ne m pos h k v j hj).mp hlivej
    apply hPI i j hil hjl
    · have h5 : (m.writeSlot pos h k v).hget i = m.hget i :=
        hget_writeSlot_ne m pos h k v i hi
      have h6 : (m.writeSlot pos h k v).hget j = m.hget j :=
        hget_writeSlot_ne m pos h k v j hj
      omega
    · have h5 : (m.writeSlot pos h k v).keys.get? i = m.keys.get? i :=
        keys_writeSlot_ne m pos h k v i hi
      have h6 : (m.writeSlot pos h k v).keys.get? j = m.keys.get? j :=
        keys_writeSlot_ne m pos h k v j hj
      rw [← h5, ← h6, hkeq]

/-- Specification of the two placement exits of `hashmap::insert` (empty
slot, or reclaimable tombstone): writing the traveling entry and bumping
`m_num_elements` preserves the invariant package, adds exactly the
traveling triple to the live set, and adds one live slot. -/
theorem insert_place_spec (m : Hashmap K V) (h : Nat) (k : K) (v : V)
    (pos d : Nat) (m' : Hashmap K V)
    (hm' : m' = { m.writeSlot pos h k v with numElements := m.numElements + 1 })
    (hWf : m.Wf) (hcap : m.capacity ≤ DELETED_HASH_BIT)
    (hok : m.HashesOk) (hInv : m.ProbeInv)
    (hh0 : 0 < h) (hhlt : h < DELETED_HASH_BIT)
    (hpos : pos < m.capacity)
    (hrel : pos = (h % m.capacity + d) % m.capacity)
    (hPO : m.PathOk (h % m.capacity) d)
    (hd : d < m.capacity)
    (hslot : m.hget pos = 0 ∨ (DELETED_HASH_BIT ≤ m.hget pos ∧ m.pdAt pos < d)) :
    m'.capacity = m.capacity ∧ m'.Wf ∧ m'.HashesOk ∧ m'.ProbeInv ∧
      m'.numElements = m.numElements + 1 ∧
      (∀ x y z, m'.MemLive x y z ↔ (m.MemLive x y z ∨ (x = h ∧ y = k ∧ z = v))) ∧
      m'.liveCount = m.liveCount + 1 ∧
      m.emptyCount ≤ m'.emptyCount + 1 ∧
      (m.PairInj → m.FreshPair h k → m'.PairInj) := by
  have hcap0 : 0 < m.capacity := by omega
  have hs : h % m.capacity < m.capacity := Nat.mod_lt _ hcap0
  have hmask : h % DELETED_HASH_BIT = h := Nat.mod_eq_of_lt hhlt
  -- the written slot's new probe distance is at least d
  have hpd' : d ≤ m._get_probe_distance pos h := by
    have h1 := m.off_le_pd pos h hpos hcap
    rw [hmask] at h1
    have h2 : off m.capacity (h % m.capacity) pos = d := by
      rw [hrel, off_add hs, Nat.mod_eq_of_lt hd]
    omega
  have hpdmono : m.hget pos = 0 ∨
      m.pdAt pos ≤ (m.writeSlot pos h k v).pdAt pos := by
    rcases hslot with h0 | ⟨_, hlt⟩
    · exact Or.inl h0
    · right
      rw [pdAt_writeSlot_self m pos h k v hWf hpos]
      omega
  have hnotlive : ¬ m.LiveAt pos := by
    rcases hslot with h0 | ⟨hge, _⟩
    · intro hl; exact hl.2.1 h0
    · intro hl; obtain ⟨-, -, hlt2⟩ := hl; omega
  -- transport of all paths
  have hPO' : ∀ s d0, m.PathOk s d0 → (m.writeSlot pos h k v).PathOk s d0 :=
    fun s d0 hp =>
      pathOk_writeSlot m pos h k v s d0 hWf hpos (by omega) hp hpdmono
  subst hm'
  refine ⟨rfl, writeSlot_Wf m pos h k v hWf,
    hashesOk_writeSlot m pos h k v hok (Or.inr (Or.inl ⟨hh0, hhlt⟩)), ?_, rfl,
    ?_, ?_, ?_, ?_⟩
  · -- ProbeInv
    intro q hqlt hqlive
    by_cases hq : q = pos
    · subst hq
      have hideal : ({ m.writeSlot q h k v with
          numElements := m.numElements + 1 } : Hashmap K V).idealAt q
          = h % m.capacity := by
        show (m.writeSlot q h k v).idealAt q = h % m.capacity
        unfold idealAt
        rw [hget_writeSlot_self m q h k v hWf hpos, writeSlot_capacity, hmask]
      rw [hideal]
      have hoff : off m.capacity (h % m.capacity) q = d := by
        rw [hrel, off_add hs, Nat.mod_eq_of_lt hd]
      show (m.writeSlot q h k v).PathOk (h % m.capacity)
        (off (m.writeSlot q h k v).capacity (h % m.capacity) q)
      rw [writeSlot_capacity, hoff]
      exact hPO' _ _ hPO
    · have hql : m.LiveAt q := by
        have : (m.writeSlot pos h k v).LiveAt q := hqlive
        exact (liveAt_writeSlot_ne m pos h k v q hq).mp this
      have hideal : ({ m.writeSlot pos h k v with
          numElements := m.numElements + 1 } : Hashmap K V).idealAt q
          = m.idealAt q := idealAt_writeSlot_ne m pos h k v q hq
      rw [hideal]
      show (m.writeSlot pos h k v).PathOk (m.idealAt q)
        (off (m.writeSlot pos h k v).capacity (m.idealAt q) q)
      rw [writeSlot_capacity]
      exact hPO' _ _ (hInv q (by exact hql.1) hql)
  · -- MemLive
    intro x y z
    have h1 := memLive_writeSlot_iff m pos h k v hWf hpos ⟨hh0, hhlt⟩ x y z
    have h2 := memLiveExcept_of_not_live m pos hnotlive x y z
    show (m.writeSlot pos h k v).MemLive x y z ↔ _
    rw [h1, h2]
  · -- liveCount
    have h1 := liveCount_writeSlot m pos h k v hWf hpos
    have hofalse : ¬(m.hget pos ≠ 0 ∧ m.hget pos < DELETED_HASH_BIT) := by
      rcases hslot with h0 | ⟨hge, _⟩ <;> omega
    rw [if_neg hofalse, if_pos ⟨by omega, hhlt⟩] at h1
    show (m.writeSlot pos h k v).liveCount = m.liveCount + 1
    omega
  · -- emptyCount
    have h1 := emptyCount_writeSlot m pos h k v hWf hpos
    rw [if_neg (by omega : ¬(h = 0))] at h1
    show m.emptyCount ≤ (m.writeSlot pos h k v).emptyCount + 1
    rcases hslot with h0 | ⟨hge, _⟩
    · rw [if_pos h0] at h1; omega
    · rw [if_neg (by omega)] at h1; omega
  · -- PairInj
    intro hPI hFresh
    exact pairInj_writeSlot m pos h k v hWf hpos hPI hFresh

/-- Full specification of `hashmap::insert`'s loop.  If the table satisfies
the invariant package, the traveling entry carries a live normalized hash,
the loop state is consistent (`pos` is `d` probe steps beyond the traveling
entry's ideal slot and the first `d` path slots are occupied and rich
enough), and the first empty slot lies `e` steps ahead with
`d + e + 1 ≤ capacity`, then the loop terminates within `e + 1` more
iterations and yields a table that: keeps the invariants, has exactly the
old live triples plus the traveling one, one more live slot, at most one
fewer empty slot, and `m_num_elements + 1`. -/
theorem insertAux_spec :
    ∀ e (m : Hashmap K V) h k v pos d fuel,
      m.Wf → m.capacity ≤ DELETED_HASH_BIT → m.HashesOk → m.ProbeInv →
      0 < h → h < DELETED_HASH_BIT →
      pos < m.capacity →
      pos = (h % m.capacity + d) % m.capacity →
      m.PathOk (h % m.capacity) d →
      m.hget ((pos + e) % m.capacity) = 0 →
      (∀ t, t < e → m.hget ((pos + t) % m.capacity) ≠ 0) →
      d + e + 1 ≤ m.capacity →
      e + 1 ≤ fuel →
      ∃ m', insertAux m h k v pos d fuel = some m' ∧
        m'.capacity = m.capacity ∧ m'.Wf ∧ m'.HashesOk ∧ m'.ProbeInv ∧
        m'.numElements = m.numElements + 1 ∧
        (∀ x y z, m'.MemLive x y z ↔
          (m.MemLive x y z ∨ (x = h ∧ y = k ∧ z = v))) ∧
        m'.liveCount = m.liveCount + 1 ∧
        m.emptyCount ≤ m'.emptyCount + 1 ∧
        (m.PairInj → m.FreshPair h k → m'.PairInj) := by
  intro e
  induction e with
  | zero =>
    intro m h k v pos d fuel hWf hcap hok hInv hh0 hhlt hpos hrel hPO hempty
      hocc hde hf
    rcases fuel with _ | n
    · omega
    · have h0 : (pos + 0) % m.capacity = pos := by
        rw [Nat.add_zero, Nat.mod_eq_of_lt hpos]
      rw [h0] at hempty
      have hemptyE : m.hashes.getD pos 0 = EMPTY_HASH := hempty
      have hred : insertAux m h k v pos d (n + 1)
          = some { m.writeSlot pos h k v with
                   numElements := m.numElements + 1 } := by
        simp only [insertAux]
        rw [if_pos hemptyE]
        rfl
      refine ⟨_, hred, ?_⟩
      have := insert_place_spec m h k v pos d _ rfl hWf hcap hok hInv hh0 hhlt
        hpos hrel hPO (by omega) (Or.inl hempty)
      exact this
  | succ e ih =>
    intro m h k v pos d fuel hWf hcap hok hInv hh0 hhlt hpos hrel hPO hempty
      hocc hde hf
    rcases fuel with _ | n
    · omega
    · have hcap0 : 0 < m.capacity := by omega
      have hs : h % m.capacity < m.capacity := Nat.mod_lt _ hcap0
      have hmask : h % DELETED_HASH_BIT = h := Nat.mod_eq_of_lt hhlt
      have hd : d < m.capacity := by omega
      have h0 : (pos + 0) % m.capacity = pos := by
        rw [Nat.add_zero, Nat.mod_eq_of_lt hpos]
      have hposne : m.hget pos ≠ 0 := by
        have := hocc 0 (by omega); rwa [h0] at this
      have hposneE : ¬(m.hashes.getD pos 0 = EMPTY_HASH) := hposne
      have hpdat : m.pdAt pos = m._get_probe_distance pos (m.hget pos) := rfl
      -- the traveling entry would sit at pos with probe distance ≥ d
      have hpdh : d ≤ m._get_probe_distance pos h := by
        have h1 := m.off_le_pd pos h hpos hcap
        rw [hmask] at h1
        have h2 : off m.capacity (h % m.capacity) pos = d := by
          rw [hrel, off_add hs, Nat.mod_eq_of_lt hd]
        omega
      -- circular stepping facts
      have hstep : ∀ x : Nat, ((pos + 1) % m.capacity + x) % m.capacity
          = (pos + (x + 1)) % m.capacity := by
        intro x
        have h1 : ((pos + 1) % m.capacity + x) % m.capacity
            = (pos + 1 + x) % m.capacity :=
          (Nat.mod_modEq (pos + 1) m.capacity).add_right x
        rw [h1, Nat.add_assoc, Nat.add_comm 1 x]
      have hslotne : ∀ t, t + 1 < m.capacity →
          (pos + (t + 1)) % m.capacity ≠ pos := by
        intro t ht hcontra
        have h2 : (pos + (t + 1)) % m.capacity = (pos + 0) % m.capacity := by
          rw [h0]; exact hcontra
        have h3 : t + 1 = 0 :=
          @add_mod_left_cancel m.capacity pos (t + 1) 0 ht hcap0 h2
        omega
      have hemptyStep : ∀ (m2 : Hashmap K V),
          (∀ j, j ≠ pos → m2.hget j = m.hget j) →
          m2.hget (((pos + 1) % m.capacity + e) % m.capacity) = 0 := by
        intro m2 hl
        rw [hstep e, hl _ (hslotne e (by omega))]
        exact hempty
      have hoccStep : ∀ (m2 : Hashmap K V),
          (∀ j, j ≠ pos → m2.hget j = m.hget j) →
          ∀ t, t < e →
            m2.hget (((pos + 1) % m.capacity + t) % m.capacity) ≠ 0 := by
        intro m2 hl t ht
        rw [hstep t, hl _ (hslotne t (by omega))]
        exact hocc (t + 1) (by omega)
      by_cases hrich : m._get_probe_distance pos (m.hget pos) < d
      · by_cases hdel : (m.hget pos).testBit 31 = true
        · -- tombstone reclamation: placement at a deleted slot
          have hdead : DELETED_HASH_BIT ≤ m.hget pos := by
            have hok2 := m.hashOk_at pos hok hWf hpos
            have hu32 : m.hget pos < U32 := by
              have := DELETED_HASH_BIT_eq
              have := U32_eq
              rcases hok2 with h1 | ⟨h1, h2⟩ | ⟨h1, h2⟩ <;> omega
            exact (testBit31_true_iff _ hu32).mp hdel
          have hrichE : m._get_probe_distance pos (m.hashes.getD pos 0) < d :=
            hrich
          have hdelE : (m.hashes.getD pos 0).testBit 31 = true := hdel
          have hred : insertAux m h k v pos d (n + 1)
              = some { m.writeSlot pos h k v with
                       numElements := m.numElements + 1 } := by
            simp only [insertAux]
            rw [if_neg hposneE, if_pos hrichE, if_pos hdelE]
            rfl
          refine ⟨_, hred, ?_⟩
          exact insert_place_spec m h k v pos d _ rfl hWf hcap hok hInv hh0
            hhlt hpos hrel hPO hd (Or.inr ⟨hdead, hrich⟩)
        · -- robin hood swap, then the evicted resident travels on
          have hu32 : m.hget pos < U32 := by
            have hok2 := m.hashOk_at pos hok hWf hpos
            have := DELETED_HASH_BIT_eq
            have := U32_eq
            rcases hok2 with h1 | ⟨h1, h2⟩ | ⟨h1, h2⟩ <;> omega
          have hrlive : m.hget pos < DELETED_HASH_BIT :=
            (testBit31_false_iff _ hu32).mp (Bool.not_eq_true _ ▸ hdel)
          have hliveAtPos : m.LiveAt pos := ⟨hpos, hposne, hrlive⟩
          have hmaskr : m.hget pos % DELETED_HASH_BIT = m.hget pos :=
            Nat.mod_eq_of_lt hrlive
          have hdecomp := m.pd_lt_cap_spec pos (m.hget pos) hpos hcap
            (by omega)
          rw [hmaskr] at hdecomp
          rw [← hpdat] at hdecomp
          obtain ⟨hrle, hposdec⟩ := hdecomp
          have hsr : m.hget pos % m.capacity < m.capacity := Nat.mod_lt _ hcap0
          -- the written table
          have hWf2 := writeSlot_Wf m pos h k v hWf
          have hok2 := hashesOk_writeSlot m pos h k v hok
            (Or.inr (Or.inl ⟨hh0, hhlt⟩))
          have hpdmono : m.hget pos = 0 ∨
              m.pdAt pos ≤ (m.writeSlot pos h k v).pdAt pos := by
            right
            rw [pdAt_writeSlot_self m pos h k v hWf hpos]
            omega
          have hPO2 : ∀ s d0, m.PathOk s d0 →
              (m.writeSlot pos h k v).PathOk s d0 :=
            fun s d0 hp =>
              pathOk_writeSlot m pos h k v s d0 hWf hpos (by omega) hp hpdmono
          have hInv2 : (m.writeSlot pos h k v).ProbeInv := by
            intro q hqlt hqlive
            by_cases hq : q = pos
            · subst hq
              have hideal : (m.writeSlot q h k v).idealAt q
                  = h % m.capacity := by
                unfold idealAt
                rw [hget_writeSlot_self m q h k v hWf hpos, writeSlot_capacity,
                  hmask]
              rw [hideal]
              show (m.writeSlot q h k v).PathOk (h % m.capacity)
                (off (m.writeSlot q h k v).capacity (h % m.capacity) q)
              rw [writeSlot_capacity]
              have hoff : off m.capacity (h % m.capacity) q = d := by
                rw [hrel, off_add hs, Nat.mod_eq_of_lt hd]
              rw [hoff]
              exact hPO2 _ _ hPO
            · have hql : m.LiveAt q :=
                (liveAt_writeSlot_ne m pos h k v q hq).mp hqlive
              rw [idealAt_writeSlot_ne m pos h k v q hq]
              show (m.writeSlot pos h k v).PathOk (m.idealAt q)
                (off (m.writeSlot pos h k v).capacity (m.idealAt q) q)
              rw [writeSlot_capacity]
              exact hPO2 _ _ (hInv q hql.1 hql)
          -- the evicted resident's ideal slot and path
          have hoffr : off m.capacity (m.hget pos % m.capacity) pos
              = m.pdAt pos := by
            unfold off
            rw [show pos + m.capacity - m.hget pos % m.capacity
                = m.pdAt pos + m.capacity by omega, Nat.add_mod_right]
            exact Nat.mod_eq_of_lt (by omega)
          have hidealr : m.idealAt pos = m.hget pos % m.capacity := by
            unfold idealAt
            rw [hmaskr]
          have hPOr : (m.writeSlot pos h k v).PathOk
              (m.hget pos % m.capacity) (m.pdAt pos + 1) := by
            have hbase := hInv pos hpos hliveAtPos
            rw [hidealr, hoffr] at hbase
            have hbase2 := hPO2 _ _ hbase
            intro t ht
            rcases Nat.lt_or_ge t (m.pdAt pos) with h1 | h1
            · exact hbase2 t h1
            · have ht2 : t = m.pdAt pos := by omega
              subst ht2
              have hslot : (m.hget pos % m.capacity + m.pdAt pos)
                  % m.capacity = pos := by
                rw [← hposdec]
                exact Nat.mod_eq_of_lt hpos
              rw [writeSlot_capacity, hslot]
              constructor
              · rw [hget_writeSlot_self m pos h k v hWf hpos]
                omega
              · rw [pdAt_writeSlot_self m pos h k v hWf hpos]
                omega
          -- apply the induction hypothesis to the modified table
          have hrel2 : (pos + 1) % m.capacity
              = (m.hget pos % m.capacity + (m.pdAt pos + 1)) % m.capacity := by
            conv_lhs => rw [hposdec]
            rw [Nat.add_assoc]
          obtain ⟨m', heq, hcap', hWf', hok', hInv', hnum', hmem', hlc', hec',
              hPIc'⟩ :=
            ih (m.writeSlot pos h k v) (m.hget pos) (m.keys.getD pos default)
              (m.values.getD pos default) ((pos + 1) % m.capacity)
              (m.pdAt pos + 1) n hWf2 hcap hok2 hInv2 (by omega) hrlive
              (Nat.mod_lt _ hcap0) hrel2 hPOr
              (hemptyStep _
                (fun j hj => hget_writeSlot_ne m pos h k v j hj))
              (hoccStep _
                (fun j hj => hget_writeSlot_ne m pos h k v j hj))
              (by show m.pdAt pos + 1 + e + 1 ≤ m.capacity; omega) (by omega)
          have hmod : (m._get_probe_distance pos (m.hashes.getD pos 0) + 1) % U32
              = m._get_probe_distance pos (m.hashes.getD pos 0) + 1 := by
            have := U32_eq
            have := DELETED_HASH_BIT_eq
            apply Nat.mod_eq_of_lt
            show m._get_probe_distance pos (m.hget pos) + 1 < U32
            omega
          have hrichE : m._get_probe_distance pos (m.hashes.getD pos 0) < d :=
            hrich
          have hdelE : ¬((m.hashes.getD pos 0).testBit 31 = true) := hdel
          have hred : insertAux m h k v pos d (n + 1)
              = insertAux (m.writeSlot pos h k v) (m.hget pos)
                  (m.keys.getD pos default) (m.values.getD pos default)
                  ((pos + 1) % m.capacity) (m.pdAt pos + 1) n := by
            simp only [insertAux]
            rw [if_neg hposneE, if_pos hrichE, if_neg hdelE, hmod]
            rfl
          refine ⟨m', by rw [hred]; exact heq, by rw [hcap']; rfl,
            hWf', hok', hInv', by rw [hnum']; rfl, ?_, ?_, ?_, ?_⟩
          · -- live triples: compose the exchange with the IH
            intro x y z
            have hk1 : m.keys.get? pos = some (m.keys.getD pos default) :=
              listGet?_eq_some_getD _ _ _ (by rw [hWf.2.1]; exact hpos)
            have hv1 : m.values.get? pos = some (m.values.getD pos default) :=
              listGet?_eq_some_getD _ _ _ (by rw [hWf.2.2]; exact hpos)
            rw [hmem' x y z,
              memLive_writeSlot_iff m pos h k v hWf hpos ⟨hh0, hhlt⟩ x y z,
              memLive_split m pos hliveAtPos x y z]
            have hresiff : (x = m.hget pos ∧ y = m.keys.getD pos default ∧
                z = m.values.getD pos default) ↔
                (m.hget pos = x ∧ m.keys.get? pos = some y ∧
                  m.values.get? pos = some z) := by
              rw [hk1, hv1]
              constructor
              · rintro ⟨rfl, rfl, rfl⟩; exact ⟨rfl, rfl, rfl⟩
              · rintro ⟨h1, h2, h3⟩
                exact ⟨h1.symm, (Option.some_inj.mp h2).symm,
                  (Option.some_inj.mp h3).symm⟩
            rw [hresiff]
            constructor
            · rintro ((h1 | h1) | h1)
              · exact Or.inl (Or.inl h1)
              · exact Or.inr h1
              · exact Or.inl (Or.inr h1)
            · rintro ((h1 | h1) | h1)
              · exact Or.inl (Or.inl h1)
              · exact Or.inr h1
              · exact Or.inl (Or.inr h1)
          · -- live count
            have h1 := liveCount_writeSlot m pos h k v hWf hpos
            rw [if_pos ⟨hposne, hrlive⟩, if_pos ⟨by omega, hhlt⟩] at h1
            omega
          · -- empty count
            have h1 := emptyCount_writeSlot m pos h k v hWf hpos
            rw [if_neg hposne, if_neg (by omega : ¬(h = 0))] at h1
            omega
          · -- pair injectivity
            intro hPI hFresh
            have hk1 : m.keys.get? pos = some (m.keys.getD pos default) :=
              listGet?_eq_some_getD _ _ _ (by rw [hWf.2.1]; exact hpos)
            apply hPIc'
            · exact pairInj_writeSlot m pos h k v hWf hpos hPI hFresh
            · -- the evicted pair is fresh for the modified table
              intro i hlivei ⟨hhi, hki⟩
              by_cases hi : i = pos
              · subst hi
                rw [hget_writeSlot_self m i h k v hWf hpos] at hhi
                rw [keys_writeSlot_self m i h k v hWf hpos] at hki
                refine hFresh i hliveAtPos ⟨by omega, ?_⟩
                rw [hk1, ← hki, Option.some_inj]
              · have hil : m.LiveAt i :=
                  (liveAt_writeSlot_ne m pos h k v i hi).mp hlivei
                rw [hget_writeSlot_ne m pos h k v i hi] at hhi
                rw [keys_writeSlot_ne m pos h k v i hi] at hki
                exact hi (hPI i pos hil hliveAtPos (by omega)
                  (by rw [hki, hk1]))
      -- (continued below)
      · -- the traveling entry is not richer: advance
        have hPOx : m.PathOk (h % m.capacity) (d + 1) := by
          intro t ht
          rcases Nat.lt_or_ge t d with h1 | h1
          · exact hPO t h1
          · have ht2 : t = d := by omega
            subst ht2
            rw [← hrel]
            refine ⟨hposne, ?_⟩
            unfold pdAt
            omega
        have hrel2 : (pos + 1) % m.capacity
            = (h % m.capacity + (d + 1)) % m.capacity := by
          rw [hrel, step_mod]
        obtain ⟨m', heq, hcap', hWf', hok', hInv', hnum', hmem', hlc', hec',
            hPIc'⟩ :=
          ih m h k v ((pos + 1) % m.capacity) (d + 1) n hWf hcap hok hInv hh0
            hhlt (Nat.mod_lt _ hcap0) hrel2 hPOx
            (hemptyStep m (fun j hj => rfl))
            (hoccStep m (fun j hj => rfl))
            (by omega) (by omega)
        have hmod : (d + 1) % U32 = d + 1 := by
          have := U32_eq
          have := DELETED_HASH_BIT_eq
          exact Nat.mod_eq_of_lt (by omega)
        have hrichE : ¬(m._get_probe_distance pos (m.hashes.getD pos 0) < d) :=
          hrich
        have hred : insertAux m h k v pos d (n + 1)
            = insertAux m h k v ((pos + 1) % m.capacity) (d + 1) n := by
          simp only [insertAux]
          rw [if_neg hposneE, if_neg hrichE, hmod]
        exact ⟨m', by rw [hred]; exact heq, hcap', hWf', hok', hInv', hnum',
          hmem', hlc', hec', hPIc'⟩

end Hashmap

namespace Hashset

variable {T : Type} [DecidableEq T] [Inhabited T]

/-- The loop of `hashset::_lookup_pos` runs at most `capacity` times: its
guard `distance < m_capacity` forces an exit. -/
theorem hsLookupPosAux_isSome (s : Hashset T) (h : Nat) (v : T) :
    ∀ fuel pos d, s.capacity ≤ DELETED_HASH_BIT → 1 ≤ fuel →
      s.capacity + 1 ≤ d + fuel →
      (lookupPosAux s h v pos d fuel).isSome := by
  intro fuel
  induction fuel with
  | zero => intro pos d _ h1 _; omega
  | succ n ih =>
    intro pos d hcap h1 hacc
    simp only [lookupPosAux]
    split
    · split
      · simp
      · split
        · simp
        · split
          · simp
          · rename_i hdlt hne hpd hmatch
            have hmod2 : (d + 1) % U32 = d + 1 := by
              have := U32_eq
              have := DELETED_HASH_BIT_eq
              exact Nat.mod_eq_of_lt (by omega)
            rw [hmod2]
            exact ih ((pos + 1) % s.capacity) (d + 1) hcap (by omega) (by omega)
    · simp

/-- `hashset::_lookup_pos` always terminates with a result, within
`capacity + 1` loop-head evaluations. -/
theorem hsLookupPos_total (s : Hashset T) (h : Nat) (v : T)
    (hcap : s.capacity ≤ DELETED_HASH_BIT) :
    (s.lookupPos h v).isSome :=
  hsLookupPosAux_isSome s h v (s.capacity + 1) (h % s.capacity) 0 hcap
    (by omega) (by omega)

end Hashset

/-! ## Lookup correctness (hashmap) -/

namespace Hashmap

variable {K V : Type} [DecidableEq K] [Inhabited K] [Inhabited V]

/-- Completeness of `hashmap::_lookup_pos`: under the invariant package, if
slot `q` is the unique LIVE slot holding `(h, k)`, the walk started at
`h % capacity` finds it (the invariant keeps both exits from firing before
the walk reaches `q`). -/
theorem lookupPosAux_found (m : Hashmap K V) (h : Nat) (k : K) (q : Nat)
    (hWf : m.Wf) (hcap : m.capacity ≤ DELETED_HASH_BIT) (hInv : m.ProbeInv)
    (hq : m.LiveAt q) (hhq : m.hget q = h) (hkq : m.keys.get? q = some k)
    (huniq : ∀ i, m.LiveAt i → m.hget i = h → m.keys.get? i = some k → i = q) :
    ∀ fuel t pos, pos = (h % m.capacity + t) % m.capacity →
      t ≤ off m.capacity (h % m.capacity) q →
      off m.capacity (h % m.capacity) q - t + 1 ≤ fuel →
      lookupPosAux m h k pos t fuel = some (true, q) := by
  have hcap0 : 0 < m.capacity := by
    rcases hq with ⟨hqlt, -, -⟩; omega
  have hs : h % m.capacity < m.capacity := Nat.mod_lt _ hcap0
  have hhlt : h < DELETED_HASH_BIT := by
    rcases hq with ⟨-, -, hlt⟩; omega
  have hh0 : h ≠ 0 := by
    rcases hq with ⟨-, hne, -⟩; omega
  have hoffq : (h % m.capacity + off m.capacity (h % m.capacity) q)
      % m.capacity = q := add_off_mod hs hq.1
  intro fuel
  induction fuel with
  | zero => intro t pos _ _ hf; omega
  | succ n ih =>
    intro t pos hpos hle hf
    rcases Nat.lt_or_ge t (off m.capacity (h % m.capacity) q) with hlt | hge
    · -- strictly before q on the path: the invariant keeps us walking
      have hPO := hInv q hq.1 hq
      have hideal : m.idealAt q = h % m.capacity := by
        unfold idealAt
        rw [hhq, Nat.mod_eq_of_lt hhlt]
      rw [hideal] at hPO
      obtain ⟨hnz, hpd⟩ := hPO t hlt
      rw [← hpos] at hnz hpd
      have hnomatch : ¬(m.hashes.getD pos 0 = h ∧ m.keys.get? pos = some k) := by
        rintro ⟨h1, h2⟩
        have hposlt : pos < m.capacity := by
          rw [hpos]; exact Nat.mod_lt _ hcap0
        have hb : m.hget pos = m.hashes.getD pos 0 := rfl
        have hlive : m.LiveAt pos := ⟨hposlt, by omega, by omega⟩
        have hpq := huniq pos hlive h1 h2
        -- pos = q forces t = off, contradicting t < off
        have h3 : (h % m.capacity + t) % m.capacity
            = (h % m.capacity + off m.capacity (h % m.capacity) q)
              % m.capacity := by rw [hoffq, ← hpq, hpos]
        have h4 := @add_mod_left_cancel m.capacity (h % m.capacity) _ _
          (Nat.lt_trans hlt (off_lt m.capacity (h % m.capacity) q hcap0))
          (off_lt _ _ _ hcap0) h3
        omega
      have hmod2 : (t + 1) % U32 = t + 1 := by
        have := U32_eq
        have := DELETED_HASH_BIT_eq
        have := off_lt m.capacity (h % m.capacity) q hcap0
        exact Nat.mod_eq_of_lt (by omega)
      have hE1 : ¬(m.hashes.getD pos 0 = EMPTY_HASH) := hnz
      have hE2 : ¬(m._get_probe_distance pos (m.hashes.getD pos 0) < t) := by
        have : m.pdAt pos = m._get_probe_distance pos (m.hashes.getD pos 0) :=
          rfl
        omega
      simp only [lookupPosAux]
      rw [if_neg hE1, if_neg hE2, if_neg hnomatch, hmod2]
      exact ih (t + 1) _ (by rw [hpos, step_mod]) (by omega) (by omega)
    · -- t = off: we are standing on q
      have ht : t = off m.capacity (h % m.capacity) q := by omega
      have hposq : pos = q := by rw [hpos, ht, hoffq]
      have hE1 : ¬(m.hashes.getD pos 0 = EMPTY_HASH) := by
        show ¬(m.hget pos = 0)
        rw [hposq]; omega
      have hE2 : ¬(m._get_probe_distance pos (m.hashes.getD pos 0) < t) := by
        rw [hposq, ht]
        have h1 := m.off_le_pd q (m.hget q) hq.1 hcap
        have h2 : m.hget q % DELETED_HASH_BIT = h := by
          rw [hhq]; exact Nat.mod_eq_of_lt hhlt
        rw [h2] at h1
        have h3 : m.pdAt q = m._get_probe_distance q (m.hashes.getD q 0) := rfl
        have h4 : m.pdAt q = m._get_probe_distance q (m.hget q) := rfl
        omega
      have hE3 : m.hashes.getD pos 0 = h ∧ m.keys.get? pos = some k := by
        rw [hposq]; exact ⟨hhq, hkq⟩
      simp only [lookupPosAux]
      rw [if_neg hE1, if_neg hE2, if_pos hE3, hposq]

/-- Soundness of `hashmap::_lookup_pos`: when no live slot stores `(h, k)`,
any result the loop produces reports "not found". -/
theorem lookupPosAux_false (m : Hashmap K V) (h : Nat) (k : K)
    (hWf : m.Wf) (hh : h < DELETED_HASH_BIT)
    (hfresh : m.FreshPair h k) :
    ∀ fuel pos d r, lookupPosAux m h k pos d fuel = some r →
      r.1 = false := by
  intro fuel
  induction fuel with
  | zero => intro pos d r hr; exact absurd hr (by simp [lookupPosAux])
  | succ n ih =>
    intro pos d r hr
    simp only [lookupPosAux] at hr
    split at hr
    · cases hr; rfl
    · split at hr
      · cases hr; rfl
      · split at hr
        · rename_i hne hpd hmatch
          exfalso
          obtain ⟨h1, h2⟩ := hmatch
          have hne2 : m.hget pos ≠ 0 := hne
          have hposlt : pos < m.capacity := by
            by_contra hge
            have : m.hashes.getD pos 0 = 0 := by
              rw [listGetD_eq_get?, List.get?_eq_none.mpr (by rw [hWf.1]; omega)]
              rfl
            exact hne2 this
          have hlive : m.LiveAt pos := ⟨hposlt, hne2, by
            show m.hget pos < DELETED_HASH_BIT
            have : m.hget pos = h := h1
            omega⟩
          exact hfresh pos hlive ⟨h1, h2⟩
        · exact ih _ _ _ hr

end Hashmap

/-! ## Tombstone-free tables and `set` -/

theorem listCount_trichotomy (l : List Nat) :
    l.countP (fun x => x == 0)
        + l.countP (fun x => decide (x ≠ 0 ∧ x < DELETED_HASH_BIT))
        + l.countP (fun x => decide (DELETED_HASH_BIT ≤ x))
      = l.length := by
  induction l with
  | nil => rfl
  | cons x xs ih =>
    have hd := DELETED_HASH_BIT_eq
    simp only [List.countP_cons, List.length_cons]
    by_cases h1 : x = 0
    · rw [if_pos (show (x == 0) = true by simp [h1]),
        if_neg (show ¬(decide (x ≠ 0 ∧ x < DELETED_HASH_BIT) = true) by
          simp [h1]),
        if_neg (show ¬(decide (DELETED_HASH_BIT ≤ x) = true) by
          simp [h1]; omega)]
      omega
    · by_cases h2 : DELETED_HASH_BIT ≤ x
      · rw [if_neg (show ¬((x == 0) = true) by simp [h1]),
          if_neg (show ¬(decide (x ≠ 0 ∧ x < DELETED_HASH_BIT) = true) by
            simp; omega),
          if_pos (show (decide (DELETED_HASH_BIT ≤ x)) = true by simp [h2])]
        omega
      · rw [if_neg (show ¬((x == 0) = true) by simp [h1]),
          if_pos (show (decide (x ≠ 0 ∧ x < DELETED_HASH_BIT)) = true by
            simp [h1]; omega),
          if_neg (show ¬(decide (DELETED_HASH_BIT ≤ x) = true) by
            simp; omega)]
        omega

namespace Hashmap

variable {K V : Type} [DecidableEq K] [Inhabited K] [Inhabited V]

/-- No slot carries the deleted bit (true as long as no `remove` has been
performed). -/
def NoDead (m : Hashmap K V) : Prop := ∀ x ∈ m.hashes, x < DELETED_HASH_BIT

instance (m : Hashmap K V) : Decidable m.NoDead := by
  unfold NoDead
  infer_instance

/-- Number of tombstones. -/
def deadCount (m : Hashmap K V) : Nat :=
  m.hashes.countP (fun x => decide (DELETED_HASH_BIT ≤ x))

theorem count_trichotomy (m : Hashmap K V) (hWf : m.Wf) :
    m.emptyCount + m.liveCount + m.deadCount = m.capacity := by
  unfold emptyCount liveCount deadCount
  rw [← hWf.1]
  exact listCount_trichotomy m.hashes

theorem noDead_deadCount (m : Hashmap K V) : m.NoDead ↔ m.deadCount = 0 := by
  unfold NoDead deadCount
  rw [List.countP_eq_zero]
  constructor <;> intro hx a ha <;> have h1 := hx a ha <;>
    simp only [decide_eq_true_eq] at * <;> omega

theorem noDead_hget (m : Hashmap K V) (hND : m.NoDead) (i : Nat) :
    m.hget i < DELETED_HASH_BIT := by
  have hd := DELETED_HASH_BIT_eq
  rcases Nat.lt_or_ge i m.hashes.length with hlt | hge
  · exact hND _ (List.get?_mem (listGet?_eq_some_getD _ _ _ hlt))
  · unfold hget
    rw [listGetD_eq_get?, List.get?_eq_none.mpr hge]
    simp
    omega

/-- On a tombstone-free table, a successful run of the insert loop implies
the table had an empty slot (the loop can only stop at one). -/
theorem insertAux_some_empty :
    ∀ fuel (m : Hashmap K V) h k v pos d m', 0 < h →
      h < DELETED_HASH_BIT → pos < m.capacity → m.Wf → m.NoDead →
      insertAux m h k v pos d fuel = some m' →
      ∃ i, i < m.capacity ∧ m.hget i = 0 := by
  intro fuel
  induction fuel with
  | zero =>
    intro m h k v pos d m' _ _ _ _ _ heq
    exact absurd heq (by simp [insertAux])
  | succ n ih =>
    intro m h k v pos d m' hh0 hhlt hpos hWf hND heq
    simp only [insertAux] at heq
    split at heq
    · rename_i hempty
      exact ⟨pos, hpos, hempty⟩
    · split at heq
      · split at heq
        · rename_i hne hrich hdel
          exfalso
          have h1 : m.hget pos < DELETED_HASH_BIT := m.noDead_hget hND pos
          have h2 := DELETED_HASH_BIT_eq
          have h3 := U32_eq
          have h4 := (testBit31_false_iff (m.hashes.getD pos 0)
            (by show m.hget pos < U32; omega)).mpr (by show m.hget pos < _; omega)
          rw [h4] at hdel
          exact Bool.false_ne_true hdel
        · rename_i hne hrich hdel
          have hWf2 := writeSlot_Wf m pos h k v hWf
          have hND2 : (m.writeSlot pos h k v).NoDead := by
            intro x hx
            rcases List.mem_or_eq_of_mem_set hx with hmem | rfl
            · exact hND x hmem
            · exact hhlt
          have h1 : 0 < m.hget pos := by
            have : m.hget pos ≠ 0 := hne
            omega
          obtain ⟨i, hi, hz⟩ := ih (m.writeSlot pos h k v)
            (m.hashes.getD pos 0) (m.keys.getD pos default)
            (m.values.getD pos default) ((pos + 1) % m.capacity) _ m' h1
            (m.noDead_hget hND pos) (Nat.mod_lt _ (by omega)) hWf2 hND2 heq
          by_cases hip : i = pos
          · exfalso
            rw [hip] at hz
            rw [hget_writeSlot_self m pos h k v hWf hpos] at hz
            omega
          · refine ⟨i, by exact hi, ?_⟩
            rw [← hget_writeSlot_ne m pos h k v i hip]
            exact hz
      · exact ih m h k v ((pos + 1) % m.capacity) _ m' hh0 hhlt
          (Nat.mod_lt _ (by omega)) hWf hND heq

/-- The normalized hash always has its deleted bit clear. -/
theorem set_eq_none (m : Hashmap K V) (h : Nat) (k : K) (v : V)
    (hlp : m.lookupPos (_hash h) k = none) : m.set h k v = none := by
  unfold set; rw [hlp]

theorem set_eq_update (m : Hashmap K V) (h : Nat) (k : K) (v : V) (p : Nat)
    (hlp : m.lookupPos (_hash h) k = some (true, p)) :
    m.set h k v = some { m with values := m.values.set p v } := by
  unfold set; rw [hlp]

theorem set_eq_insert (m : Hashmap K V) (h : Nat) (k : K) (v : V) (p : Nat)
    (hlp : m.lookupPos (_hash h) k = some (false, p)) :
    m.set h k v = m.insert (_hash h) k v := by
  unfold set; rw [hlp]

theorem lookup_eq_found (m : Hashmap K V) (h : Nat) (k : K) (p : Nat)
    (hlp : m.lookupPos (_hash h) k = some (true, p)) :
    m.lookup h k = some (some (m.values.getD p default)) := by
  unfold lookup; rw [hlp]

theorem lookup_eq_notfound (m : Hashmap K V) (h : Nat) (k : K) (p : Nat)
    (hlp : m.lookupPos (_hash h) k = some (false, p)) :
    m.lookup h k = some none := by
  unfold lookup; rw [hlp]

theorem remove_eq_found (m : Hashmap K V) (h : Nat) (k : K) (p : Nat)
    (hlp : m.lookupPos (_hash h) k = some (true, p)) :
    m.remove h k = some { m with
      hashes := m.hashes.set p (m.hashes.getD p 0 ||| DELETED_HASH_BIT),
      numElements := m.numElements - 1 } := by
  unfold remove; rw [hlp]

theorem remove_eq_notfound (m : Hashmap K V) (h : Nat) (k : K) (p : Nat)
    (hlp : m.lookupPos (_hash h) k = some (false, p)) :
    m.remove h k = some m := by
  unfold remove; rw [hlp]

/-- A (hash, key) pair is fresh exactly when no value is live under it. -/
theorem freshPair_of_memLive (m : Hashmap K V) (h : Nat) (k : K)
    (hWf : m.Wf) (hnm : ∀ v, ¬ m.MemLive h k v) : m.FreshPair h k := by
  intro i hlive ⟨hh, hk⟩
  refine hnm (m.values.getD i default) ⟨i, hlive, hh, hk, ?_⟩
  exact listGet?_eq_some_getD _ _ _ (by rw [hWf.2.2]; exact hlive.1)

theorem _hash_lt (h : Nat) : _hash h < DELETED_HASH_BIT := by
  simp only [_hash]
  have hd := DELETED_HASH_BIT_eq
  have hu := U32_eq
  have he := EMPTY_HASH_eq
  split
  · omega
  · split
    · have := @Nat.mod_lt (h % U32) DELETED_HASH_BIT (by omega)
      omega
    · rename_i h1 h2
      have h3 : h % U32 < U32 := Nat.mod_lt _ (by omega)
      have h4 := (testBit31_false_iff (h % U32) h3).mp (by
        rw [Bool.not_eq_true] at h2; exact h2)
      omega


/-- `hashmap::set` on a fresh normalized (hash, key) pair with an empty
slot available: the lookup misses, the raw insert runs and succeeds, and
the table gains exactly the new triple. -/
theorem set_fresh_spec (m : Hashmap K V) (h : Nat) (k : K) (v : V)
    (hWf : m.Wf) (hcap : m.capacity ≤ DELETED_HASH_BIT)
    (hcap0 : 0 < m.capacity)
    (hok : m.HashesOk) (hInv : m.ProbeInv)
    (hh : _hash h ≠ 0)
    (hfresh : m.FreshPair (_hash h) k)
    (hempty : ∃ i, i < m.capacity ∧ m.hget i = 0) :
    ∃ m', m.set h k v = some m' ∧
      m'.capacity = m.capacity ∧ m'.Wf ∧ m'.HashesOk ∧ m'.ProbeInv ∧
      m'.numElements = m.numElements + 1 ∧
      (∀ x y z, m'.MemLive x y z ↔
        (m.MemLive x y z ∨ (x = _hash h ∧ y = k ∧ z = v))) ∧
      m'.liveCount = m.liveCount + 1 ∧
      m.emptyCount ≤ m'.emptyCount + 1 ∧
      (m.PairInj → m'.PairInj) := by
  classical
  have hs : _hash h % m.capacity < m.capacity := Nat.mod_lt _ hcap0
  -- the lookup reports not-found
  obtain ⟨r, hr⟩ := Option.isSome_iff_exists.mp
    (m.lookupPos_total (_hash h) k hcap0 hcap)
  have hfalse : r.1 = false :=
    lookupPosAux_false m (_hash h) k hWf (_hash_lt h) hfresh _ _ _ r hr
  have hr2 : m.lookupPos (_hash h) k = some (false, r.2) := by
    rw [hr]
    cases r
    simp only at hfalse
    rw [hfalse]
  -- the first empty slot ahead of the ideal position
  obtain ⟨i, hi, hz⟩ := hempty
  have hP : ∃ t, m.hget ((_hash h % m.capacity + t) % m.capacity) = 0 :=
    ⟨off m.capacity (_hash h % m.capacity) i, by rwa [add_off_mod hs hi]⟩
  have he := Nat.find_spec hP
  have hmin : ∀ t, t < Nat.find hP →
      m.hget ((_hash h % m.capacity + t) % m.capacity) ≠ 0 :=
    fun t ht => Nat.find_min hP ht
  have hlt : Nat.find hP < m.capacity := by
    have h1 : Nat.find hP ≤ off m.capacity (_hash h % m.capacity) i :=
      Nat.find_min' hP (by rwa [add_off_mod hs hi])
    have h2 := off_lt m.capacity (_hash h % m.capacity) i hcap0
    omega
  obtain ⟨m', heq, hcap', hWf', hok', hInv', hnum', hmem', hlc', hec',
      hPIc'⟩ :=
    insertAux_spec (Nat.find hP) m (_hash h) k v (_hash h % m.capacity) 0
      m.capacity hWf hcap hok hInv (by omega) (_hash_lt h) hs
      (by rw [Nat.add_zero, Nat.mod_eq_of_lt hs])
      (fun t ht => absurd ht (Nat.not_lt_zero t)) he hmin (by omega)
      (by omega)
  refine ⟨m', ?_, hcap', hWf', hok', hInv', hnum', hmem', hlc', hec',
    fun hPI => hPIc' hPI hfresh⟩
  rw [set_eq_insert m h k v r.2 hr2]
  exact heq

/-- `hashmap::set` preserves the invariant package and tombstone-freeness
whenever it terminates, regardless of whether the key already exists. -/
theorem set_inv (m : Hashmap K V) (h : Nat) (k : K) (v : V)
    (m' : Hashmap K V)
    (hWf : m.Wf) (hcap : m.capacity ≤ DELETED_HASH_BIT)
    (hok : m.HashesOk) (hInv : m.ProbeInv) (hND : m.NoDead)
    (hh : _hash h ≠ 0)
    (hset : m.set h k v = some m') :
    m'.capacity = m.capacity ∧ m'.Wf ∧ m'.HashesOk ∧ m'.ProbeInv ∧
      m'.NoDead := by
  rcases hlp : m.lookupPos (_hash h) k with _ | ⟨b, p⟩
  · rw [set_eq_none m h k v hlp] at hset
    cases hset
  · cases b
    · -- not found: the raw insert ran and succeeded
      rw [set_eq_insert m h k v p hlp] at hset
      rcases Nat.eq_zero_or_pos m.capacity with hc0 | hcap0
      · exfalso
        unfold insert at hset
        rw [hc0] at hset
        simp [insertAux] at hset
      have hins : insertAux m (_hash h) k v (_hash h % m.capacity) 0
          m.capacity = some m' := hset
      have hs : _hash h % m.capacity < m.capacity := Nat.mod_lt _ hcap0
      have hempty := insertAux_some_empty m.capacity m (_hash h) k v
        (_hash h % m.capacity) 0 m' (by omega) (_hash_lt h) hs hWf hND hins
      obtain ⟨i, hi, hz⟩ := hempty
      have hP : ∃ t, m.hget ((_hash h % m.capacity + t) % m.capacity) = 0 :=
        ⟨off m.capacity (_hash h % m.capacity) i, by rwa [add_off_mod hs hi]⟩
      have he := Nat.find_spec hP
      have hmin : ∀ t, t < Nat.find hP →
          m.hget ((_hash h % m.capacity + t) % m.capacity) ≠ 0 :=
        fun t ht => Nat.find_min hP ht
      have hlt : Nat.find hP < m.capacity := by
        have h1 : Nat.find hP ≤ off m.capacity (_hash h % m.capacity) i :=
          Nat.find_min' hP (by rwa [add_off_mod hs hi])
        have h2 := off_lt m.capacity (_hash h % m.capacity) i hcap0
        omega
      obtain ⟨m2, heq, hcap', hWf', hok', hInv', hnum', hmem', hlc', hec',
          hPIc'⟩ :=
        insertAux_spec (Nat.find hP) m (_hash h) k v (_hash h % m.capacity) 0
          m.capacity hWf hcap hok hInv (by omega) (_hash_lt h) hs
          (by rw [Nat.add_zero, Nat.mod_eq_of_lt hs])
          (fun t ht => absurd ht (Nat.not_lt_zero t)) he hmin (by omega)
          (by omega)
      have hm2 : m2 = m' := by
        rw [heq] at hins
        exact Option.some_inj.mp hins
      subst hm2
      refine ⟨hcap', hWf', hok', hInv', ?_⟩
      -- no tombstone can appear: counting argument
      have ht1 := m.count_trichotomy hWf
      have ht2 := m2.count_trichotomy hWf'
      have hd0 : m.deadCount = 0 := (noDead_deadCount m).mp hND
      rw [(noDead_deadCount m2)]
      omega
    · -- found: only the value region changes
      rw [set_eq_update m h k v p hlp] at hset
      cases hset
      refine ⟨rfl, ⟨hWf.1, hWf.2.1, ?_⟩, hok, hInv, hND⟩
      show (m.values.set p v).length = m.capacity
      rw [List.length_set]
      exact hWf.2.2

/-- `hashmap::lookup` finds a live triple (under the invariant package). -/
theorem lookup_found_spec (m : Hashmap K V) (h : Nat) (k : K) (v : V)
    (hWf : m.Wf) (hcap : m.capacity ≤ DELETED_HASH_BIT)
    (hInv : m.ProbeInv) (hPI : m.PairInj)
    (hmem : m.MemLive (_hash h) k v) :
    m.lookup h k = some (some v) := by
  obtain ⟨q, hlive, hhq, hkq, hvq⟩ := hmem
  have hcap0 : 0 < m.capacity := by rcases hlive with ⟨h1, -, -⟩; omega
  have hs : _hash h % m.capacity < m.capacity := Nat.mod_lt _ hcap0
  have huniq : ∀ i, m.LiveAt i → m.hget i = _hash h →
      m.keys.get? i = some k → i = q := by
    intro i hlive2 hh2 hk2
    exact hPI i q hlive2 hlive (by rw [hh2, hhq]) (by rw [hk2, hkq])
  have hfound := lookupPosAux_found m (_hash h) k q hWf hcap hInv hlive hhq
    hkq huniq (2 * m.capacity) 0 (_hash h % m.capacity)
    (by rw [Nat.add_zero, Nat.mod_eq_of_lt hs])
    (by omega)
    (by
      have := off_lt m.capacity (_hash h % m.capacity) q hcap0
      omega)
  have hlp : m.lookupPos (_hash h) k = some (true, q) := hfound
  rw [lookup_eq_found m h k q hlp]
  have : m.values.getD q default = v := by
    rw [listGetD_eq_get?, hvq]
    rfl
  rw [this]

/-- `hashmap::lookup` reports not-found when no live slot matches. -/
theorem lookup_notfound_spec (m : Hashmap K V) (h : Nat) (k : K)
    (hWf : m.Wf) (hcap : m.capacity ≤ DELETED_HASH_BIT)
    (hcap0 : 0 < m.capacity)
    (hfresh : m.FreshPair (_hash h) k) :
    m.lookup h k = some none := by
  obtain ⟨r, hr⟩ := Option.isSome_iff_exists.mp
    (m.lookupPos_total (_hash h) k hcap0 hcap)
  have hfalse : r.1 = false :=
    lookupPosAux_false m (_hash h) k hWf (_hash_lt h) hfresh _ _ _ r hr
  have hr2 : m.lookupPos (_hash h) k = some (false, r.2) := by
    rw [hr]
    cases r
    simp only at hfalse
    rw [hfalse]
  exact lookup_eq_notfound m h k r.2 hr2



theorem listGetD_replicate {A : Type _} (n i : Nat) (a d : A) :
    (List.replicate n a).getD i d = if i < n then a else d := by
  induction n generalizing i with
  | zero => simp [List.replicate]
  | succ j ih =>
    cases i with
    | zero => simp [List.replicate]
    | succ i2 =>
      simp only [List.replicate, List.getD_cons_succ]
      rw [ih]
      by_cases h : i2 < j
      · rw [if_pos h, if_pos (by omega)]
      · rw [if_neg h, if_neg (by omega)]

theorem create_hget (keySize valSize bufferSize : Nat) (k0 : K) (v0 : V)
    (i : Nat) :
    (create keySize valSize bufferSize k0 v0 : Hashmap K V).hget i = 0 := by
  show (List.replicate _ EMPTY_HASH).getD i 0 = 0
  rw [listGetD_replicate]
  split <;> rfl

/-- The freshly created table: well formed, all slots empty, no live
entries. -/
theorem create_spec (keySize valSize bufferSize : Nat) (k0 : K) (v0 : V) :
    (create keySize valSize bufferSize k0 v0 : Hashmap K V).Wf ∧
      (create keySize valSize bufferSize k0 v0 : Hashmap K V).HashesOk ∧
      (create keySize valSize bufferSize k0 v0 : Hashmap K V).ProbeInv ∧
      (create keySize valSize bufferSize k0 v0 : Hashmap K V).NoDead ∧
      (create keySize valSize bufferSize k0 v0 : Hashmap K V).PairInj ∧
      (create keySize valSize bufferSize k0 v0 : Hashmap K V).numElements = 0 ∧
      (create keySize valSize bufferSize k0 v0 : Hashmap K V).liveCount = 0 ∧
      (create keySize valSize bufferSize k0 v0 : Hashmap K V).emptyCount
        = (create keySize valSize bufferSize k0 v0 : Hashmap K V).capacity ∧
      (∀ x y z, ¬ (create keySize valSize bufferSize k0 v0 :
        Hashmap K V).MemLive x y z) := by
  have hd := DELETED_HASH_BIT_eq
  have hnl : ∀ i, ¬ (create keySize valSize bufferSize k0 v0 :
      Hashmap K V).LiveAt i := by
    intro i hl
    exact hl.2.1 (create_hget keySize valSize bufferSize k0 v0 i)
  refine ⟨⟨by simp [create], by simp [create], by simp [create]⟩,
    ?_, ?_, ?_, ?_, rfl, ?_, ?_, ?_⟩
  · intro x hx
    rw [List.eq_of_mem_replicate hx]
    exact Or.inl rfl
  · intro q hq hl
    exact absurd hl (hnl q)
  · intro x hx
    rw [List.eq_of_mem_replicate hx, EMPTY_HASH_eq]
    omega
  · intro i j hi
    exact absurd hi (hnl i)
  · apply List.countP_eq_zero.mpr
    intro a ha
    rw [List.eq_of_mem_replicate ha]
    simp [EMPTY_HASH]
  · show List.countP _ _ = _
    rw [List.countP_eq_length.mpr]
    · simp [create]
    · intro a ha
      rw [List.eq_of_mem_replicate ha]
      rfl
  · rintro x y z ⟨i, hl, -⟩
    exact hnl i hl

theorem setList_nil (m : Hashmap K V) : m.setList [] = some m := rfl

theorem setList_cons (m : Hashmap K V) (op : Nat × K × V)
    (ops : List (Nat × K × V)) :
    m.setList (op :: ops)
      = (m.set op.1 op.2.1 op.2.2).bind (fun m1 => m1.setList ops) := by
  unfold setList
  rw [List.foldlM_cons]
  rfl

/-- A terminating sequence of `set` calls (with hashes not normalizing
to the empty sentinel) keeps the invariant package. -/
theorem setList_inv (ops : List (Nat × K × V)) :
    ∀ (m m' : Hashmap K V), m.Wf → m.capacity ≤ DELETED_HASH_BIT →
      m.HashesOk → m.ProbeInv → m.NoDead →
      (∀ op ∈ ops, _hash op.1 ≠ 0) →
      m.setList ops = some m' →
      m'.Wf ∧ m'.HashesOk ∧ m'.ProbeInv ∧ m'.NoDead ∧
        m'.capacity = m.capacity := by
  induction ops with
  | nil =>
    intro m m' h1 h2 h3 h4 h5 h6 hfold
    rw [setList_nil] at hfold
    cases hfold
    exact ⟨h1, h3, h4, h5, rfl⟩
  | cons op ops ih =>
    intro m m' h1 h2 h3 h4 h5 h6 hfold
    rw [setList_cons] at hfold
    obtain ⟨m1, hset, hrest⟩ := Option.bind_eq_some.mp hfold
    obtain ⟨hcap1, hWf1, hok1, hInv1, hND1⟩ :=
      set_inv m op.1 op.2.1 op.2.2 m1 h1 h2 h3 h4 h5
        (h6 op (List.mem_cons_self op ops)) hset
    obtain ⟨hWf2, hok2, hInv2, hND2, hcap2⟩ :=
      ih m1 m' hWf1 (by rw [hcap1]; exact h2) hok1 hInv1 hND1
        (fun o ho => h6 o (List.mem_cons_of_mem op ho)) hrest
    exact ⟨hWf2, hok2, hInv2, hND2, by rw [hcap2, hcap1]⟩

/-- A sequence of `set` calls with pairwise distinct normalized (hash, key)
pairs, all fresh, fitting into the empty slots: every call inserts, and
the live set grows by exactly the normalized triples. -/
theorem setList_fresh_spec (ops : List (Nat × K × V)) :
    ∀ (m : Hashmap K V), m.Wf → m.capacity ≤ DELETED_HASH_BIT →
      m.HashesOk → m.ProbeInv → m.PairInj →
      (∀ op ∈ ops, _hash op.1 ≠ 0) →
      (∀ op ∈ ops, m.FreshPair (_hash op.1) op.2.1) →
      List.Pairwise (fun a b => ¬(_hash a.1 = _hash b.1 ∧ a.2.1 = b.2.1)) ops →
      ops.length ≤ m.emptyCount →
      ∃ m', m.setList ops = some m' ∧
        m'.capacity = m.capacity ∧ m'.Wf ∧ m'.HashesOk ∧ m'.ProbeInv ∧
        m'.PairInj ∧
        m'.numElements = m.numElements + ops.length ∧
        (∀ x y z, m'.MemLive x y z ↔
          (m.MemLive x y z ∨
            ∃ op ∈ ops, x = _hash op.1 ∧ y = op.2.1 ∧ z = op.2.2)) := by
  induction ops with
  | nil =>
    intro m h1 h2 h3 h4 h5 h6 h7 h8 h9
    exact ⟨m, setList_nil m, rfl, h1, h3, h4, h5, rfl, by simp⟩
  | cons op ops ih =>
    intro m hWf hcap hok hInv hPI hnz hfresh hpw hcnt
    -- an empty slot exists
    have hpos : 0 < m.emptyCount := by
      have := List.length_cons op ops
      omega
    obtain ⟨i, hilen, a, hgq, hpa⟩ :=
      (listCountP_pos_iff (fun x => x == 0) m.hashes).mp hpos
    have hz : m.hget i = 0 := by
      show m.hashes.getD i 0 = 0
      rw [listGetD_eq_get?, hgq]
      simpa using hpa
    have hic : i < m.capacity := by rw [← hWf.1]; exact hilen
    have hcap0 : 0 < m.capacity := by omega
    obtain ⟨m1, hset, hcap1, hWf1, hok1, hInv1, hnum1, hmem1, hlc1, hec1,
        hPIc1⟩ :=
      set_fresh_spec m op.1 op.2.1 op.2.2 hWf hcap hcap0 hok hInv
        (hnz op (List.mem_cons_self op ops))
        (hfresh op (List.mem_cons_self op ops)) ⟨i, hic, hz⟩
    have hPI1 : m1.PairInj := hPIc1 hPI
    obtain ⟨hhead, htail⟩ := List.pairwise_cons.mp hpw
    have hfresh1 : ∀ o ∈ ops, m1.FreshPair (_hash o.1) o.2.1 := by
      intro o ho
      apply freshPair_of_memLive m1 _ _ hWf1
      intro v hv
      rcases (hmem1 _ _ _).mp hv with hold | ⟨hx, hy, -⟩
      · obtain ⟨j, hlj, hhj, hkj, -⟩ := hold
        exact hfresh o (List.mem_cons_of_mem op ho) j hlj ⟨hhj, hkj⟩
      · exact hhead o ho ⟨hx.symm, hy.symm⟩
    obtain ⟨m', hrest, hcap', hWf', hok', hInv', hPI', hnum', hmem'⟩ :=
      ih m1 hWf1 (by rw [hcap1]; exact hcap) hok1 hInv1 hPI1
        (fun o ho => hnz o (List.mem_cons_of_mem op ho)) hfresh1 htail
        (by
          have := List.length_cons op ops
          omega)
    refine ⟨m', ?_, by rw [hcap', hcap1], hWf', hok', hInv', hPI', ?_, ?_⟩
    · rw [setList_cons, hset]
      exact hrest
    · rw [hnum', hnum1, List.length_cons]
      omega
    · intro x y z
      rw [hmem' x y z]
      constructor
      · rintro (hm1 | ⟨o, ho, hP⟩)
        · rcases (hmem1 x y z).mp hm1 with hold | hnew
          · exact Or.inl hold
          · exact Or.inr ⟨op, List.mem_cons_self op ops, hnew⟩
        · exact Or.inr ⟨o, List.mem_cons_of_mem op ho, hP⟩
      · rintro (hold | ⟨o, ho, hP⟩)
        · exact Or.inl ((hmem1 x y z).mpr (Or.inl hold))
        · rcases List.mem_cons.mp ho with rfl | ho2
          · exact Or.inl ((hmem1 x y z).mpr (Or.inr hP))
          · exact Or.inr ⟨o, ho2, hP⟩



/-- The raw `hashmap::insert` on a fresh normalized (hash, key) pair with
an empty slot available succeeds and the table gains exactly the new
triple. -/
theorem insert_fresh_spec (m : Hashmap K V) (h : Nat) (k : K) (v : V)
    (hWf : m.Wf) (hcap : m.capacity ≤ DELETED_HASH_BIT)
    (hcap0 : 0 < m.capacity)
    (hok : m.HashesOk) (hInv : m.ProbeInv)
    (hh0 : 0 < h) (hhlt : h < DELETED_HASH_BIT)
    (hempty : ∃ i, i < m.capacity ∧ m.hget i = 0) :
    ∃ m', m.insert h k v = some m' ∧
      m'.capacity = m.capacity ∧ m'.Wf ∧ m'.HashesOk ∧ m'.ProbeInv ∧
      m'.numElements = m.numElements + 1 ∧
      (∀ x y z, m'.MemLive x y z ↔
        (m.MemLive x y z ∨ (x = h ∧ y = k ∧ z = v))) ∧
      m'.liveCount = m.liveCount + 1 ∧
      m.emptyCount ≤ m'.emptyCount + 1 ∧
      (m.PairInj → m.FreshPair h k → m'.PairInj) := by
  classical
  have hs : h % m.capacity < m.capacity := Nat.mod_lt _ hcap0
  obtain ⟨i, hi, hz⟩ := hempty
  have hP : ∃ t, m.hget ((h % m.capacity + t) % m.capacity) = 0 :=
    ⟨off m.capacity (h % m.capacity) i, by rwa [add_off_mod hs hi]⟩
  have he := Nat.find_spec hP
  have hmin : ∀ t, t < Nat.find hP →
      m.hget ((h % m.capacity + t) % m.capacity) ≠ 0 :=
    fun t ht => Nat.find_min hP ht
  have hlt : Nat.find hP < m.capacity := by
    have h1 : Nat.find hP ≤ off m.capacity (h % m.capacity) i :=
      Nat.find_min' hP (by rwa [add_off_mod hs hi])
    have h2 := off_lt m.capacity (h % m.capacity) i hcap0
    omega
  exact insertAux_spec (Nat.find hP) m h k v (h % m.capacity) 0
    m.capacity hWf hcap hok hInv hh0 hhlt hs
    (by rw [Nat.add_zero, Nat.mod_eq_of_lt hs])
    (fun t ht => absurd ht (Nat.not_lt_zero t)) he hmin (by omega)
    (by omega)

/-- Counting step: a table whose live count grew by one while the empty
count dropped by at most one stays tombstone-free. -/
theorem noDead_succ (m m' : Hashmap K V) (hWf : m.Wf) (hWf' : m'.Wf)
    (hcap' : m'.capacity = m.capacity)
    (hlc' : m'.liveCount = m.liveCount + 1)
    (hec' : m.emptyCount ≤ m'.emptyCount + 1)
    (hND : m.NoDead) : m'.NoDead := by
  have ht1 := m.count_trichotomy hWf
  have ht2 := m'.count_trichotomy hWf'
  have hd0 : m.deadCount = 0 := (noDead_deadCount m).mp hND
  rw [noDead_deadCount m']
  omega

theorem listCountP_eq_range {A : Type _} (l : List A) (d : A) (p : A → Bool) :
    l.countP p = (List.range l.length).countP (fun i => p (l.getD i d)) := by
  induction l with
  | nil => simp
  | cons a t ih =>
    rw [List.countP_cons, List.length_cons, List.range_succ_eq_map,
      List.countP_cons, List.countP_map]
    have h1 : (List.range t.length).countP
          ((fun i => p ((a :: t).getD i d)) ∘ Nat.succ)
        = (List.range t.length).countP (fun i => p (t.getD i d)) := by
      apply List.countP_congr
      intro i hi
      simp [Function.comp, List.getD_cons_succ]
    rw [h1, ← ih, List.getD_cons_zero]

/-- `liveCount` counts the indices at which the table is LIVE. -/
theorem liveCount_eq_range (m : Hashmap K V) (hWf : m.Wf) :
    m.liveCount
      = (List.range m.capacity).countP (fun i => decide (m.LiveAt i)) := by
  show m.hashes.countP _ = _
  rw [listCountP_eq_range m.hashes 0, hWf.1]
  apply List.countP_congr
  intro i hi
  have hic : i < m.capacity := List.mem_range.mp hi
  simp only [decide_eq_true_eq]
  unfold LiveAt hget
  constructor
  · intro hx
    exact ⟨hic, hx.1, hx.2⟩
  · intro hx
    exact ⟨hx.2.1, hx.2.2⟩



/-- The body of the `copy` fold: skip empty and deleted source slots,
raw-insert live ones. -/
def copyStep (m : Hashmap K V) (acc : Hashmap K V) (i : Nat) :
    Option (Hashmap K V) :=
  if m.hashes.getD i 0 = EMPTY_HASH then some acc
  else if (m.hashes.getD i 0).testBit 31 then some acc
  else acc.insert (m.hashes.getD i 0) (m.keys.getD i default)
    (m.values.getD i default)

theorem copy_eq_foldlM (m : Hashmap K V) (keySize valSize bufferSize : Nat)
    (k0 : K) (v0 : V) :
    m.copy keySize valSize bufferSize k0 v0
      = (List.range m.capacity).foldlM m.copyStep
          (create keySize valSize bufferSize k0 v0) := rfl

/-- The `copy` fold over any duplicate-free list of in-range source
indices: every live source slot raw-inserts its triple into the
accumulator and the whole fold succeeds as long as the empty slots
suffice. -/
theorem copyAux_spec (m : Hashmap K V) (hmWf : m.Wf) (hmok : m.HashesOk)
    (hmPI : m.PairInj) :
    ∀ (is : List Nat), is.Nodup → (∀ i ∈ is, i < m.capacity) →
    ∀ (acc : Hashmap K V), acc.Wf → acc.capacity ≤ DELETED_HASH_BIT →
      acc.HashesOk → acc.ProbeInv → acc.PairInj → acc.NoDead →
      (∀ i ∈ is, m.LiveAt i →
        ∀ z, ¬ acc.MemLive (m.hget i) (m.keys.getD i default) z) →
      is.countP (fun i => decide (m.LiveAt i)) ≤ acc.emptyCount →
      ∃ acc', is.foldlM m.copyStep acc = some acc' ∧
        acc'.capacity = acc.capacity ∧ acc'.Wf ∧ acc'.HashesOk ∧
        acc'.ProbeInv ∧ acc'.PairInj ∧ acc'.NoDead ∧
        acc'.numElements
          = acc.numElements + is.countP (fun i => decide (m.LiveAt i)) ∧
        acc'.liveCount
          = acc.liveCount + is.countP (fun i => decide (m.LiveAt i)) ∧
        (∀ x y z, acc'.MemLive x y z ↔
          (acc.MemLive x y z ∨
            ∃ i ∈ is, m.LiveAt i ∧ m.hget i = x ∧
              m.keys.get? i = some y ∧ m.values.get? i = some z)) := by
  intro is
  induction is with
  | nil =>
    intro _ _ acc h1 h2 h3 h4 h5 h6 h7 h8
    exact ⟨acc, rfl, rfl, h1, h3, h4, h5, h6, by simp, by simp, by simp⟩
  | cons i0 is ih =>
    intro hnd hbnd acc hWf hcap hok hInv hPI hND hfresh hcnt
    have hi0c : i0 < m.capacity := hbnd i0 (List.mem_cons_self i0 is)
    have hfold : (i0 :: is).foldlM m.copyStep acc
        = (m.copyStep acc i0).bind (fun a => is.foldlM m.copyStep a) := by
      rw [List.foldlM_cons]
      rfl
    have hOk := hashOk_at m i0 hmok hmWf hi0c
    have hu : m.hget i0 < U32 := by
      have hd := DELETED_HASH_BIT_eq
      have hu2 := U32_eq
      rcases hOk with h | h | h <;> omega
    by_cases hz : m.hget i0 = 0
    · -- empty source slot: skipped
      have hnl : ¬ m.LiveAt i0 := fun hl => hl.2.1 hz
      have hstep : m.copyStep acc i0 = some acc := by
        unfold copyStep
        rw [if_pos (show m.hashes.getD i0 0 = EMPTY_HASH from hz)]
      have hcP : (i0 :: is).countP (fun i => decide (m.LiveAt i))
          = is.countP (fun i => decide (m.LiveAt i)) := by
        rw [List.countP_cons,
          if_neg (show ¬((fun i => decide (m.LiveAt i)) i0 = true) by
            simp only [decide_eq_true_eq]
            exact hnl),
          Nat.add_zero]
      obtain ⟨acc', hrest, hcap', hWf', hok', hInv', hPI', hND', hnum',
          hlc', hmem'⟩ :=
        ih (List.nodup_cons.mp hnd).2
          (fun i hi => hbnd i (List.mem_cons_of_mem i0 hi)) acc hWf hcap
          hok hInv hPI hND
          (fun i hi => hfresh i (List.mem_cons_of_mem i0 hi))
          (by omega)
      refine ⟨acc', ?_, hcap', hWf', hok', hInv', hPI', hND',
        by rw [hcP]; exact hnum', by rw [hcP]; exact hlc', ?_⟩
      · rw [hfold, hstep]
        exact hrest
      · intro x y z
        rw [hmem' x y z]
        constructor
        · rintro (hold | ⟨i, hi, hP⟩)
          · exact Or.inl hold
          · exact Or.inr ⟨i, List.mem_cons_of_mem i0 hi, hP⟩
        · rintro (hold | ⟨i, hi, hP⟩)
          · exact Or.inl hold
          · rcases List.mem_cons.mp hi with rfl | hi2
            · exact absurd hP.1 hnl
            · exact Or.inr ⟨i, hi2, hP⟩
    · by_cases htb : (m.hget i0).testBit 31 = true
      · -- tombstone source slot: skipped
        have hge : DELETED_HASH_BIT ≤ m.hget i0 :=
          (testBit31_true_iff _ hu).mp htb
        have hnl : ¬ m.LiveAt i0 := fun hl => absurd hl.2.2 (by omega)
        have hstep : m.copyStep acc i0 = some acc := by
          unfold copyStep
          rw [if_neg (show ¬(m.hashes.getD i0 0 = EMPTY_HASH) from hz),
            if_pos (show (m.hashes.getD i0 0).testBit 31 = true from htb)]
        have hcP : (i0 :: is).countP (fun i => decide (m.LiveAt i))
            = is.countP (fun i => decide (m.LiveAt i)) := by
          rw [List.countP_cons,
            if_neg (show ¬((fun i => decide (m.LiveAt i)) i0 = true) by
              simp only [decide_eq_true_eq]
              exact hnl),
            Nat.add_zero]
        obtain ⟨acc', hrest, hcap', hWf', hok', hInv', hPI', hND', hnum',
            hlc', hmem'⟩ :=
          ih (List.nodup_cons.mp hnd).2
            (fun i hi => hbnd i (List.mem_cons_of_mem i0 hi)) acc hWf hcap
            hok hInv hPI hND
            (fun i hi => hfresh i (List.mem_cons_of_mem i0 hi))
            (by omega)
        refine ⟨acc', ?_, hcap', hWf', hok', hInv', hPI', hND',
          by rw [hcP]; exact hnum', by rw [hcP]; exact hlc', ?_⟩
        · rw [hfold, hstep]
          exact hrest
        · intro x y z
          rw [hmem' x y z]
          constructor
          · rintro (hold | ⟨i, hi, hP⟩)
            · exact Or.inl hold
            · exact Or.inr ⟨i, List.mem_cons_of_mem i0 hi, hP⟩
          · rintro (hold | ⟨i, hi, hP⟩)
            · exact Or.inl hold
            · rcases List.mem_cons.mp hi with rfl | hi2
              · exact absurd hP.1 hnl
              · exact Or.inr ⟨i, hi2, hP⟩
      · -- live source slot: raw-insert it
        have hlt2 : m.hget i0 < DELETED_HASH_BIT :=
          (testBit31_false_iff _ hu).mp (Bool.not_eq_true _ ▸ htb)
        have hLi : m.LiveAt i0 := ⟨hi0c, hz, hlt2⟩
        have hcP : (i0 :: is).countP (fun i => decide (m.LiveAt i))
            = is.countP (fun i => decide (m.LiveAt i)) + 1 := by
          rw [List.countP_cons,
            if_pos (show (fun i => decide (m.LiveAt i)) i0 = true from
              decide_eq_true_eq.mpr hLi)]
        have hpos : 0 < acc.emptyCount := by omega
        obtain ⟨j, hjlen, a, hgq, hpa⟩ :=
          (listCountP_pos_iff (fun x => x == 0) acc.hashes).mp hpos
        have hz2 : acc.hget j = 0 := by
          show acc.hashes.getD j 0 = 0
          rw [listGetD_eq_get?, hgq]
          simpa using hpa
        have hjc : j < acc.capacity := by rw [← hWf.1]; exact hjlen
        have hcap0 : 0 < acc.capacity := by omega
        have hfr : acc.FreshPair (m.hget i0) (m.keys.getD i0 default) :=
          freshPair_of_memLive acc _ _ hWf
            (hfresh i0 (List.mem_cons_self i0 is) hLi)
        obtain ⟨acc1, hins, hcap1, hWf1, hok1, hInv1, hnum1, hmem1, hlc1,
            hec1, hPIc1⟩ :=
          insert_fresh_spec acc (m.hget i0) (m.keys.getD i0 default)
            (m.values.getD i0 default) hWf hcap hcap0 hok hInv
            (Nat.pos_of_ne_zero hz) hlt2 ⟨j, hjc, hz2⟩
        have hPI1 : acc1.PairInj := hPIc1 hPI hfr
        have hND1 : acc1.NoDead := noDead_succ acc acc1 hWf hWf1 hcap1 hlc1
          hec1 hND
        have hstep : m.copyStep acc i0 = some acc1 := by
          unfold copyStep
          rw [if_neg (show ¬(m.hashes.getD i0 0 = EMPTY_HASH) from hz),
            if_neg (show ¬((m.hashes.getD i0 0).testBit 31 = true) from htb)]
          exact hins
        have hfresh1 : ∀ i ∈ is, m.LiveAt i →
            ∀ z, ¬ acc1.MemLive (m.hget i) (m.keys.getD i default) z := by
          intro i hi hLi2 z hv
          rcases (hmem1 _ _ _).mp hv with hold | ⟨hx, hy, -⟩
          · exact hfresh i (List.mem_cons_of_mem i0 hi) hLi2 z hold
          · have hic : i < m.capacity := hbnd i (List.mem_cons_of_mem i0 hi)
            have hkeq : m.keys.get? i = m.keys.get? i0 := by
              rw [listGet?_eq_some_getD m.keys i default
                  (by rw [hmWf.2.1]; exact hic),
                listGet?_eq_some_getD m.keys i0 default
                  (by rw [hmWf.2.1]; exact hi0c),
                hy]
            have heq := hmPI i i0 hLi2 hLi hx hkeq
            exact (List.nodup_cons.mp hnd).1 (heq ▸ hi)
        have hcnt1 : is.countP (fun i => decide (m.LiveAt i))
            ≤ acc1.emptyCount := by
          have ht1 := acc.count_trichotomy hWf
          have ht2 := acc1.count_trichotomy hWf1
          have hd1 : acc.deadCount = 0 := (noDead_deadCount acc).mp hND
          have hd2 : acc1.deadCount = 0 := (noDead_deadCount acc1).mp hND1
          omega
        obtain ⟨acc', hrest, hcap', hWf', hok', hInv', hPI', hND', hnum',
            hlc', hmem'⟩ :=
          ih (List.nodup_cons.mp hnd).2
            (fun i hi => hbnd i (List.mem_cons_of_mem i0 hi)) acc1 hWf1
            (by rw [hcap1]; exact hcap) hok1 hInv1 hPI1 hND1 hfresh1 hcnt1
        refine ⟨acc', ?_, by rw [hcap', hcap1], hWf', hok', hInv', hPI',
          hND', by rw [hcP, hnum', hnum1]; omega,
          by rw [hcP, hlc', hlc1]; omega, ?_⟩
        · rw [hfold, hstep]
          exact hrest
        · intro x y z
          rw [hmem' x y z]
          constructor
          · rintro (h1 | ⟨i, hi, hP⟩)
            · rcases (hmem1 x y z).mp h1 with hold | ⟨rfl, rfl, rfl⟩
              · exact Or.inl hold
              · exact Or.inr ⟨i0, List.mem_cons_self i0 is, hLi, rfl,
                  listGet?_eq_some_getD m.keys i0 default
                    (by rw [hmWf.2.1]; exact hi0c),
                  listGet?_eq_some_getD m.values i0 default
                    (by rw [hmWf.2.2]; exact hi0c)⟩
            · exact Or.inr ⟨i, List.mem_cons_of_mem i0 hi, hP⟩
          · rintro (hold | ⟨i, hi, hLi2, hx, hy, hz3⟩)
            · exact Or.inl ((hmem1 x y z).mpr (Or.inl hold))
            · rcases List.mem_cons.mp hi with rfl | hi2
              · refine Or.inl ((hmem1 x y z).mpr (Or.inr ⟨hx.symm, ?_, ?_⟩))
                · have h5 : m.keys.get? i = some (m.keys.getD i default) :=
                    listGet?_eq_some_getD m.keys i default
                      (by rw [hmWf.2.1]; exact hi0c)
                  rw [hy] at h5
                  exact Option.some_inj.mp h5
                · have h6 : m.values.get? i
                      = some (m.values.getD i default) :=
                    listGet?_eq_some_getD m.values i default
                      (by rw [hmWf.2.2]; exact hi0c)
                  rw [hz3] at h6
                  exact Option.some_inj.mp h6
              · exact Or.inr ⟨i, hi2, hLi2, hx, hy, hz3⟩



/-- `hashmap::copy` of a consistent source into a fresh buffer whose
capacity accommodates all live entries: the copy succeeds, carries over
exactly the live triples, and its element count is the source's live
count. -/
theorem copy_spec (m : Hashmap K V) (keySize valSize bufferSize : Nat)
    (k0 : K) (v0 : V)
    (hmWf : m.Wf) (hmok : m.HashesOk) (hmPI : m.PairInj)
    (hcapD : bufferSize / (keySize + valSize + 4) ≤ DELETED_HASH_BIT)
    (hroom : m.liveCount ≤ bufferSize / (keySize + valSize + 4)) :
    ∃ m', m.copy keySize valSize bufferSize k0 v0 = some m' ∧
      m'.capacity = bufferSize / (keySize + valSize + 4) ∧
      m'.Wf ∧ m'.HashesOk ∧ m'.ProbeInv ∧ m'.PairInj ∧ m'.NoDead ∧
      m'.numElements = m.liveCount ∧
      m'.liveCount = m.liveCount ∧
      (∀ x y z, m'.MemLive x y z ↔ m.MemLive x y z) := by
  obtain ⟨hcWf, hcok, hcInv, hcND, hcPI, hcnum, hclc, hcec, hcmem⟩ :=
    create_spec keySize valSize bufferSize k0 v0
  have hccap : (create keySize valSize bufferSize k0 v0 :
      Hashmap K V).capacity = bufferSize / (keySize + valSize + 4) := rfl
  have hrange := liveCount_eq_range m hmWf
  obtain ⟨m', hrest, hcap', hWf', hok', hInv', hPI', hND', hnum', hlc',
      hmem'⟩ :=
    copyAux_spec m hmWf hmok hmPI (List.range m.capacity)
      (List.nodup_range m.capacity) (fun i hi => List.mem_range.mp hi)
      (create keySize valSize bufferSize k0 v0) hcWf
      (by rw [hccap]; exact hcapD) hcok hcInv hcPI hcND
      (fun i hi hl z hv => hcmem _ _ _ hv)
      (by rw [← hrange, hcec, hccap]; exact hroom)
  refine ⟨m', ?_, by rw [hcap', hccap], hWf', hok', hInv', hPI', hND',
    by rw [hnum', hcnum, ← hrange, Nat.zero_add],
    by rw [hlc', hclc, ← hrange, Nat.zero_add], ?_⟩
  · rw [copy_eq_foldlM]
    exact hrest
  · intro x y z
    rw [hmem' x y z]
    constructor
    · rintro (hc | ⟨i, hi, hL, hx, hy, hz⟩)
      · exact absurd hc (hcmem x y z)
      · exact ⟨i, hL, hx, hy, hz⟩
    · rintro ⟨i, hL, hx, hy, hz⟩
      exact Or.inr ⟨i, List.mem_range.mpr hL.1, hL, hx, hy, hz⟩

/-- `hashmap::copy` preserves the result of every lookup (under the
invariant package, when the source counts no phantom entries and both
capacities are positive). -/
theorem copy_lookup_spec (m : Hashmap K V) (keySize valSize bufferSize : Nat)
    (k0 : K) (v0 : V)
    (hmWf : m.Wf) (hcapD0 : m.capacity ≤ DELETED_HASH_BIT)
    (hcap0 : 0 < m.capacity)
    (hmok : m.HashesOk) (hmInv : m.ProbeInv) (hmPI : m.PairInj)
    (hcapD : bufferSize / (keySize + valSize + 4) ≤ DELETED_HASH_BIT)
    (hcap0n : 0 < bufferSize / (keySize + valSize + 4))
    (hroom : m.liveCount ≤ bufferSize / (keySize + valSize + 4)) :
    ∃ m', m.copy keySize valSize bufferSize k0 v0 = some m' ∧
      m'.numElements = m.liveCount ∧
      (∀ h k, m'.lookup h k = m.lookup h k) := by
  obtain ⟨m', heq, hcap', hWf', hok', hInv', hPI', hND', hnum', hlc',
      hmem'⟩ :=
    copy_spec m keySize valSize bufferSize k0 v0 hmWf hmok hmPI hcapD hroom
  refine ⟨m', heq, hnum', ?_⟩
  intro h k
  by_cases hex : ∃ v, m.MemLive (_hash h) k v
  · obtain ⟨v, hv⟩ := hex
    rw [lookup_found_spec m h k v hmWf hcapD0 hmInv hmPI hv,
      lookup_found_spec m' h k v hWf' (by rw [hcap']; exact hcapD)
        hInv' hPI' ((hmem' _ _ _).mpr hv)]
  · have hfr : m.FreshPair (_hash h) k :=
      freshPair_of_memLive m _ _ hmWf (fun v hv => hex ⟨v, hv⟩)
    have hfr' : m'.FreshPair (_hash h) k :=
      freshPair_of_memLive m' _ _ hWf'
        (fun v hv => hex ⟨v, (hmem' _ _ _).mp hv⟩)
    rw [lookup_notfound_spec m h k hmWf hcapD0 hcap0 hfr,
      lookup_notfound_spec m' h k hWf' (by rw [hcap']; exact hcapD)
        (by rw [hcap']; exact hcap0n) hfr']



/-! ## Remove: setting the deleted bit -/

theorem or_del_eq_add (h : Nat) (hlt : h < DELETED_HASH_BIT) :
    h ||| DELETED_HASH_BIT = h + DELETED_HASH_BIT := by
  have hd : DELETED_HASH_BIT = 2 ^ 31 := rfl
  rw [hd] at hlt ⊢
  apply Nat.eq_of_testBit_eq
  intro j
  rw [Nat.testBit_or, show h + 2 ^ 31 = 2 ^ 31 * 1 + h by ring,
    Nat.testBit_mul_pow_two_add 1 hlt j]
  by_cases hj : j < 31
  · rw [if_pos hj, Nat.testBit_two_pow_of_ne (by omega), Bool.or_false]
  · rw [if_neg hj]
    by_cases hj2 : j = 31
    · subst hj2
      rw [Nat.testBit_lt_two_pow hlt, Nat.testBit_two_pow_self]
      rfl
    · rw [Nat.testBit_lt_two_pow
          (lt_of_lt_of_le hlt (Nat.pow_le_pow_right (by omega) (by omega))),
        Nat.testBit_two_pow_of_ne (by omega),
        Nat.testBit_lt_two_pow (by
          calc 1 < 2 ^ 1 := by omega
          _ ≤ 2 ^ (j - 31) := Nat.pow_le_pow_right (by omega) (by omega))]
      rfl

/-- `hashmap::remove` on a present key: the found slot's hash gets the
deleted bit set (its low 31 bits intact), keys and values are untouched,
and `num_elements` drops by one. -/
theorem remove_found_spec (m : Hashmap K V) (h : Nat) (k : K) (v : V)
    (hWf : m.Wf) (hcap : m.capacity ≤ DELETED_HASH_BIT)
    (hInv : m.ProbeInv) (hPI : m.PairInj)
    (hmem : m.MemLive (_hash h) k v) :
    ∃ m' p, m.remove h k = some m' ∧ m.LiveAt p ∧ m.hget p = _hash h ∧
      m.keys.get? p = some k ∧
      m'.keys = m.keys ∧ m'.values = m.values ∧
      m'.numElements = m.numElements - 1 ∧
      m'.hashes = m.hashes.set p (m.hget p ||| DELETED_HASH_BIT) ∧
      m'.hget p = m.hget p + DELETED_HASH_BIT ∧
      m'.hget p % DELETED_HASH_BIT = m.hget p ∧
      (m'.hget p).testBit 31 = true ∧
      (∀ j, j ≠ p → m'.hget j = m.hget j) := by
  obtain ⟨q, hlive, hhq, hkq, hvq⟩ := hmem
  have hcap0 : 0 < m.capacity := by rcases hlive with ⟨h1, -, -⟩; omega
  have hs : _hash h % m.capacity < m.capacity := Nat.mod_lt _ hcap0
  have huniq : ∀ i, m.LiveAt i → m.hget i = _hash h →
      m.keys.get? i = some k → i = q := by
    intro i hlive2 hh2 hk2
    exact hPI i q hlive2 hlive (by rw [hh2, hhq]) (by rw [hk2, hkq])
  have hfound := lookupPosAux_found m (_hash h) k q hWf hcap hInv hlive hhq
    hkq huniq (2 * m.capacity) 0 (_hash h % m.capacity)
    (by rw [Nat.add_zero, Nat.mod_eq_of_lt hs])
    (by omega)
    (by
      have := off_lt m.capacity (_hash h % m.capacity) q hcap0
      omega)
  have hlp : m.lookupPos (_hash h) k = some (true, q) := hfound
  have hd := DELETED_HASH_BIT_eq
  have hu := U32_eq
  have hql : q < m.hashes.length := by rw [hWf.1]; exact hlive.1
  have horq : m.hashes.getD q 0 ||| DELETED_HASH_BIT
      = m.hashes.getD q 0 + DELETED_HASH_BIT := or_del_eq_add _ hlive.2.2
  refine ⟨_, q, remove_eq_found m h k q hlp, hlive, hhq, hkq, rfl, rfl, rfl,
    rfl, ?_, ?_, ?_, ?_⟩
  · show (m.hashes.set q (m.hashes.getD q 0 ||| DELETED_HASH_BIT)).getD q 0
        = m.hget q + DELETED_HASH_BIT
    rw [listGetD_set_self _ _ _ _ hql, horq]
    rfl
  · show (m.hashes.set q (m.hashes.getD q 0 ||| DELETED_HASH_BIT)).getD q 0
        % DELETED_HASH_BIT = m.hget q
    rw [listGetD_set_self _ _ _ _ hql, horq, Nat.add_mod_right]
    exact Nat.mod_eq_of_lt hlive.2.2
  · show ((m.hashes.set q (m.hashes.getD q 0 ||| DELETED_HASH_BIT)).getD q 0
        ).testBit 31 = true
    rw [listGetD_set_self _ _ _ _ hql, horq]
    have hlt2 : m.hashes.getD q 0 < DELETED_HASH_BIT := hlive.2.2
    rw [testBit31_true_iff _ (by omega)]
    omega
  · intro j hj
    show (m.hashes.set q (m.hashes.getD q 0 ||| DELETED_HASH_BIT)).getD j 0
        = m.hget j
    rw [listGetD_set_ne _ _ _ _ _ (fun hc => hj hc.symm)]
    rfl

/-- `hashmap::remove` on an absent key returns the table unchanged. -/
theorem remove_absent_spec (m : Hashmap K V) (h : Nat) (k : K)
    (hWf : m.Wf) (hcap : m.capacity ≤ DELETED_HASH_BIT)
    (hcap0 : 0 < m.capacity)
    (hfresh : m.FreshPair (_hash h) k) :
    m.remove h k = some m := by
  obtain ⟨r, hr⟩ := Option.isSome_iff_exists.mp
    (m.lookupPos_total (_hash h) k hcap0 hcap)
  have hfalse : r.1 = false :=
    lookupPosAux_false m (_hash h) k hWf (_hash_lt h) hfresh _ _ _ r hr
  have hr2 : m.lookupPos (_hash h) k = some (false, r.2) := by
    rw [hr]
    cases r
    simp only at hfalse
    rw [hfalse]
  exact remove_eq_notfound m h k r.2 hr2

/-! ## Hash normalization: explicit form, collisions, idempotence -/

end Hashmap

/-- The normalization in closed form on `uint32` inputs: `0` becomes `1`,
a set bit 31 is cleared, anything else is unchanged. -/
theorem _hash_closed_form (h : Nat) (hlt : h < U32) :
    Hashmap._hash h
      = if h = 0 then 1
        else if DELETED_HASH_BIT ≤ h then h - DELETED_HASH_BIT else h := by
  have hd := DELETED_HASH_BIT_eq
  have hu := U32_eq
  unfold Hashmap._hash
  rw [Nat.mod_eq_of_lt hlt]
  by_cases h0 : h = 0
  · subst h0
    rw [if_pos (show (0 : Nat) = EMPTY_HASH from rfl), if_pos rfl]
    rfl
  · rw [if_neg (show ¬(h = EMPTY_HASH) from h0), if_neg h0]
    by_cases hge : DELETED_HASH_BIT ≤ h
    · rw [if_pos ((testBit31_true_iff h hlt).mpr hge), if_pos hge,
        Nat.mod_eq_sub_mod hge, Nat.mod_eq_of_lt (by omega)]
    · have hf : h.testBit 31 = false :=
        (testBit31_false_iff h hlt).mpr (by omega)
      rw [hf, if_neg hge]
      rfl

namespace Hashmap

variable {K V : Type} [DecidableEq K] [Inhabited K] [Inhabited V]

/-- Hashes `0` and `1` normalize identically. -/
theorem _hash_zero_eq_one : _hash 0 = 1 ∧ _hash 1 = 1 := ⟨rfl, rfl⟩

/-- On nonzero normalized hashes, normalization is idempotent. -/
theorem _hash_idem_of_ne (h : Nat) (hnz : _hash h ≠ 0) :
    _hash (_hash h) = _hash h := by
  have hd := DELETED_HASH_BIT_eq
  have hu := U32_eq
  have hlt : _hash h < DELETED_HASH_BIT := _hash_lt h
  rw [_hash_closed_form (_hash h) (by omega), if_neg hnz, if_neg (by omega)]

/-- All four public hash-indexed operations depend on the caller hash only
through its normalization. -/
theorem ops_hash_congr (m : Hashmap K V) (h1 h2 : Nat) (k : K) (v : V)
    (hh : _hash h1 = _hash h2) :
    m.set h1 k v = m.set h2 k v ∧ m.lookup h1 k = m.lookup h2 k ∧
      m.get h1 k = m.get h2 k ∧ m.remove h1 k = m.remove h2 k := by
  unfold set lookup get remove
  rw [hh]
  exact ⟨rfl, rfl, rfl, rfl⟩

/-- A `true` result of the lookup loop points at a slot that stores the
queried (necessarily nonzero) hash and key. -/
theorem lookupPosAux_true_spec (m : Hashmap K V) (hash : Nat) (key : K) :
    ∀ fuel pos d p, lookupPosAux m hash key pos d fuel = some (true, p) →
      m.hget p = hash ∧ hash ≠ 0 ∧ m.keys.get? p = some key := by
  intro fuel
  induction fuel with
  | zero => intro pos d p hc; cases hc
  | succ n ih =>
    intro pos d p hc
    simp only [lookupPosAux, ← List.getD_eq_getElem?_getD] at hc
    by_cases h1 : m.hashes.getD pos 0 = EMPTY_HASH
    · rw [if_pos h1] at hc
      cases hc
    · rw [if_neg h1] at hc
      by_cases h2 : m._get_probe_distance pos (m.hashes.getD pos 0) < d
      · rw [if_pos h2] at hc
        cases hc
      · rw [if_neg h2] at hc
        by_cases h3 : m.hashes.getD pos 0 = hash ∧ m.keys.get? pos = some key
        · rw [if_pos h3] at hc
          cases hc
          exact ⟨h3.1, fun hz => h1 (by rw [h3.1]; exact hz), h3.2⟩
        · rw [if_neg h3] at hc
          exact ih _ _ _ hc

/-- When `lookup` reports found, `get` (which re-normalizes the already
normalized hash) returns exactly the value `lookup` reported. -/
theorem get_eq_of_lookup_found (m : Hashmap K V) (h : Nat) (k : K) (v : V)
    (hlk : m.lookup h k = some (some v)) :
    m.get h k = some v := by
  rcases hlp : m.lookupPos (_hash h) k with _ | ⟨b, p⟩
  · unfold lookup at hlk
    rw [hlp] at hlk
    cases hlk
  · cases b
    · rw [lookup_eq_notfound m h k p hlp] at hlk
      cases hlk
    · obtain ⟨hh, hnz, hk⟩ := lookupPosAux_true_spec m (_hash h) k _ _ _ p hlp
      have hidem : _hash (_hash h) = _hash h := _hash_idem_of_ne h hnz
      have hlk2 : m.lookup (_hash h) k = m.lookup h k := by
        unfold lookup lookupPos
        rw [hidem]
      unfold get
      rw [hlk2, hlk]



/-! ## Iterator scan -/

/-- The iterator scan finds nothing when no live slot remains at or after
`i`. -/
theorem iterNextAux_none (m : Hashmap K V) (hWf : m.Wf) (hok : m.HashesOk) :
    ∀ n i, m.capacity - i ≤ n →
      (∀ j, i ≤ j → j < m.capacity → ¬ m.LiveAt j) →
      m.iterNextAux i = none := by
  intro n
  induction n with
  | zero =>
    intro i hle hno
    rw [iterNextAux.eq_def, dif_neg (by omega)]
  | succ n ih =>
    intro i hle hno
    rw [iterNextAux.eq_def]
    by_cases hic : i < m.capacity
    · rw [dif_pos hic]
      have hbr : m.hget i = m.hashes.getD i 0 := rfl
      have hu : m.hashes.getD i 0 < U32 := by
        have hd := DELETED_HASH_BIT_eq
        have hu2 := U32_eq
        rcases hashOk_at m i hok hWf hic with h | h | h <;> omega
      by_cases hz : m.hashes.getD i 0 = EMPTY_HASH
      · rw [if_pos hz]
        exact ih (i + 1) (by omega) (fun j hj1 hj2 => hno j (by omega) hj2)
      · have htb : (m.hashes.getD i 0).testBit 31 = true := by
          rw [testBit31_true_iff _ hu]
          by_contra hcon
          exact hno i le_rfl hic ⟨hic, hz, by omega⟩
        rw [if_neg hz, if_pos htb]
        exact ih (i + 1) (by omega) (fun j hj1 hj2 => hno j (by omega) hj2)
    · rw [dif_neg hic]

/-- The iterator scan returns the first live slot at or after `i`. -/
theorem iterNextAux_live (m : Hashmap K V) (hWf : m.Wf) (hok : m.HashesOk) :
    ∀ n i p, m.capacity - i ≤ n → i ≤ p → m.LiveAt p →
      (∀ j, i ≤ j → j < p → ¬ m.LiveAt j) →
      m.iterNextAux i
        = some (p, m.keys.getD p default, m.values.getD p default) := by
  intro n
  induction n with
  | zero =>
    intro i p hle hip hlp hno
    exact absurd hlp.1 (by omega)
  | succ n ih =>
    intro i p hle hip hlp hno
    have hpc : p < m.capacity := hlp.1
    rw [iterNextAux.eq_def, dif_pos (by omega)]
    have hbr : m.hget i = m.hashes.getD i 0 := rfl
    have hu : m.hashes.getD i 0 < U32 := by
      have hd := DELETED_HASH_BIT_eq
      have hu2 := U32_eq
      rcases hashOk_at m i hok hWf (by omega) with h | h | h <;> omega
    by_cases hip2 : i = p
    · subst hip2
      rw [if_neg (show ¬(m.hashes.getD i 0 = EMPTY_HASH) from hlp.2.1),
        if_neg (show ¬((m.hashes.getD i 0).testBit 31 = true) by
          rw [Bool.not_eq_true, testBit31_false_iff _ hu]
          exact hlp.2.2)]
    · have hnl : ¬ m.LiveAt i := hno i le_rfl (by omega)
      by_cases hz : m.hashes.getD i 0 = EMPTY_HASH
      · rw [if_pos hz]
        exact ih (i + 1) p (by omega) (by omega) hlp
          (fun j hj1 hj2 => hno j (by omega) hj2)
      · have htb : (m.hashes.getD i 0).testBit 31 = true := by
          rw [testBit31_true_iff _ hu]
          by_contra hcon
          exact hnl ⟨by omega, hz, by omega⟩
        rw [if_neg hz, if_pos htb]
        exact ih (i + 1) p (by omega) (by omega) hlp
          (fun j hj1 hj2 => hno j (by omega) hj2)

/-- `hashmap::iter_next` on an exhausted cursor: reports nothing and
returns the offset **unchanged** (the C code only writes the cursor on a
hit). -/
theorem iterNext_exhausted (m : Hashmap K V) (hWf : m.Wf)
    (hok : m.HashesOk) (offset : Nat)
    (hno : ∀ j, offset ≤ j → j < m.capacity → ¬ m.LiveAt j) :
    m.iterNext offset = (offset, none) := by
  unfold iterNext
  rw [iterNextAux_none m hWf hok (m.capacity - offset) offset le_rfl hno]

/-- `hashmap::iter_next` on a cursor whose next live slot is `p`: returns
that slot's key and value and moves the cursor to `p + 1`. -/
theorem iterNext_live (m : Hashmap K V) (hWf : m.Wf)
    (hok : m.HashesOk) (offset p : Nat) (hip : offset ≤ p)
    (hlp : m.LiveAt p)
    (hno : ∀ j, offset ≤ j → j < p → ¬ m.LiveAt j) :
    m.iterNext offset
      = (p + 1, some (m.keys.getD p default, m.values.getD p default)) := by
  unfold iterNext
  rw [iterNextAux_live m hWf hok (m.capacity - offset) offset p le_rfl hip
    hlp hno]

def fullOne : Hashmap Nat Nat :=
  { numElements := 1, capacity := 1, hashes := [1], keys := [0], values := [0] }

/-- The private insert of the map, started on the full one-slot table, runs
forever: no amount of fuel makes it finish (it keeps swapping the resident
entry with the traveling one). -/
theorem insertAux_fullOne_none (fuel : Nat) :
    ∀ (k v k0 v0 d : Nat),
      insertAux (⟨1, 1, [1], [k0], [v0]⟩ : Hashmap Nat Nat) 1 k v 0 d fuel
        = none := by
  induction fuel with
  | zero => intro k v k0 v0 d; rfl
  | succ n ih =>
    intro k v k0 v0 d
    have hpd : (⟨1, 1, [1], [k0], [v0]⟩ : Hashmap Nat Nat)._get_probe_distance
        0 (([1] : List Nat).getD 0 0) = 0 := by
      show (0 + U32 - (1 % DELETED_HASH_BIT) % 1) % U32 = 0
      norm_num
    simp only [insertAux, hpd]
    rw [if_neg (show ¬(([1] : List Nat).getD 0 0 = EMPTY_HASH) by decide)]
    by_cases hd : 0 < d
    · rw [if_pos hd,
        if_neg (show ¬((([1] : List Nat).getD 0 0).testBit 31 = true)
          by decide)]
      exact ih k0 v0 k v 1
    · rw [if_neg hd]
      exact ih k v k0 v0 ((d + 1) % U32)

end Hashmap

namespace Hashset

variable {T : Type} [DecidableEq T] [Inhabited T]

/-- `hashset::_insert` really is a no-op on a full table: the guard
returns before the loop. -/
theorem hsInsert_full (s : Hashset T) (h : Nat) (x : T)
    (hfull : s.numElements = s.capacity) : s._insert h x = some s := by
  unfold _insert
  rw [if_pos hfull]

end Hashset

namespace Hashmap

variable {K V : Type} [DecidableEq K] [Inhabited K] [Inhabited V]



/-! ## Decidable entry points for the unbounded invariants -/

/-- `PairInj` follows from its capacity-bounded (decidable) form. -/
theorem pairInj_of_bounded (m : Hashmap K V)
    (hb : ∀ i, i < m.capacity → ∀ j, j < m.capacity →
      (m.LiveAt i ∧ m.LiveAt j ∧ m.hget i = m.hget j ∧
        m.keys.get? i = m.keys.get? j) → i = j) : m.PairInj :=
  fun i j hi hj hh hk => hb i hi.1 j hj.1 ⟨hi, hj, hh, hk⟩

/-- `FreshPair` follows from its capacity-bounded (decidable) form. -/
theorem freshPair_of_bounded (m : Hashmap K V) (h : Nat) (k : K)
    (hb : ∀ i, i < m.capacity →
      ¬(m.LiveAt i ∧ m.hget i = h ∧ m.keys.get? i = some k)) :
    m.FreshPair h k :=
  fun i hi hik => hb i hi.1 ⟨hi, hik.1, hik.2⟩

/-! ## The claims -/

/-- C1.  Round-trip of `set` then `lookup` on a freshly created map.  As
stated over raw caller hashes the claim fails (distinct caller pairs can
collide after normalization, see the counterexample); it holds for
sequences whose *normalized* `(hash, key)` pairs are pairwise distinct and
whose hashes do not normalize to the empty sentinel: every `set` lands,
and `lookup` reports found with the value written for the pair. -/
theorem claim_C1_roundtrip (keySize valSize bufferSize : Nat) (k0 : K)
    (v0 : V) (ops : List (Nat × K × V))
    (hcapD : bufferSize / (keySize + valSize + 4) ≤ DELETED_HASH_BIT)
    (hlen : ops.length ≤ bufferSize / (keySize + valSize + 4))
    (hnz : ∀ op ∈ ops, _hash op.1 ≠ 0)
    (hpw : List.Pairwise
      (fun a b => ¬(_hash a.1 = _hash b.1 ∧ a.2.1 = b.2.1)) ops) :
    ∃ T, (create keySize valSize bufferSize k0 v0 : Hashmap K V).setList ops
        = some T ∧
      ∀ op ∈ ops, T.lookup op.1 op.2.1 = some (some op.2.2) := by
  obtain ⟨hcWf, hcok, hcInv, hcND, hcPI, hcnum, hclc, hcec, hcmem⟩ :=
    create_spec keySize valSize bufferSize k0 v0
  have hccap : (create keySize valSize bufferSize k0 v0 :
      Hashmap K V).capacity = bufferSize / (keySize + valSize + 4) := rfl
  obtain ⟨T, hfold, hcap', hWf', hok', hInv', hPI', hnum', hmem'⟩ :=
    setList_fresh_spec ops (create keySize valSize bufferSize k0 v0) hcWf
      (by rw [hccap]; exact hcapD) hcok hcInv hcPI hnz
      (fun op hop => freshPair_of_memLive _ _ _ hcWf
        (fun v hv => hcmem _ _ _ hv))
      hpw (by rw [hcec, hccap]; exact hlen)
  refine ⟨T, hfold, ?_⟩
  intro op hop
  exact lookup_found_spec T op.1 op.2.1 op.2.2 hWf'
    (by rw [hcap', hccap]; exact hcapD) hInv' hPI'
    ((hmem' _ _ _).mpr (Or.inr ⟨op, hop, rfl, rfl, rfl⟩))

theorem claim_C1_roundtrip_witness :
    ∃ T, (create 4 4 24 0 0 : Hashmap Nat Nat).setList
        [(2, 10, 7), (4, 11, 8)] = some T ∧
      ∀ op ∈ ([(2, 10, 7), (4, 11, 8)] : List (Nat × Nat × Nat)),
        T.lookup op.1 op.2.1 = some (some op.2.2) :=
  claim_C1_roundtrip 4 4 24 0 0 [(2, 10, 7), (4, 11, 8)] (by decide)
    (by decide) (by decide) (by decide)

/-- C1, refuted as stated: the caller pairs `(0, 5)` and `(1, 5)` are
distinct and fit the capacity, yet after `set(0,5,1); set(1,5,2)` the
lookup of `(0, 5)` returns `2`, not its last written value `1` (hashes `0`
and `1` collide after normalization). -/
theorem claim_C1_counterexample :
    (create 4 4 24 0 0 : Hashmap Nat Nat).capacity = 2 ∧
    ((0, 5) : Nat × Nat) ≠ (1, 5) ∧
    ((create 4 4 24 0 0 : Hashmap Nat Nat).setList
        [(0, 5, 1), (1, 5, 2)]).bind (fun T => T.lookup 0 5)
      = some (some 2) ∧
    (2 : Nat) ≠ 1 := by decide

/-- C2.  The pairwise ordering stated in the spec is refuted by the
counterexample (probe distances *grow* along a run whose entries hash to
the same ideal slot).  The invariant the insert loop actually maintains,
for every table reachable from a fresh one by terminating `set` calls, is
`ProbeInv`: every LIVE slot `q` is reachable from its ideal slot — each of
the `off(ideal(q), q)` slots before it on the probe path is non-empty and
sits at probe distance at least its offset from `ideal(q)` (which is what
makes the lookup's early termination sound). -/
theorem claim_C2_robin_hood_invariant (keySize valSize bufferSize : Nat)
    (k0 : K) (v0 : V) (ops : List (Nat × K × V)) (T : Hashmap K V)
    (hcapD : bufferSize / (keySize + valSize + 4) ≤ DELETED_HASH_BIT)
    (hnz : ∀ op ∈ ops, _hash op.1 ≠ 0)
    (hfold : (create keySize valSize bufferSize k0 v0 :
      Hashmap K V).setList ops = some T) :
    T.ProbeInv := by
  obtain ⟨hcWf, hcok, hcInv, hcND, hcPI, hcnum, hclc, hcec, hcmem⟩ :=
    create_spec keySize valSize bufferSize k0 v0
  have hccap : (create keySize valSize bufferSize k0 v0 :
      Hashmap K V).capacity = bufferSize / (keySize + valSize + 4) := rfl
  obtain ⟨-, -, hInv', -, -⟩ :=
    setList_inv ops (create keySize valSize bufferSize k0 v0) T hcWf
      (by rw [hccap]; exact hcapD) hcok hcInv hcND hnz hfold
  exact hInv'

theorem claim_C2_robin_hood_invariant_witness :
    (⟨2, 2, [2, 4], [10, 11], [7, 8]⟩ : Hashmap Nat Nat).ProbeInv :=
  claim_C2_robin_hood_invariant 4 4 24 0 0 [(2, 10, 7), (4, 11, 8)]
    (⟨2, 2, [2, 4], [10, 11], [7, 8]⟩ : Hashmap Nat Nat)
    (by decide) (by decide) (by decide)

/-- C2, refuted as stated: in the reachable table `[2, 4]` both slots are
LIVE on one contiguous run, slot 0 precedes slot 1 in probe order and both
ideal positions are 0, yet slot 0's probe distance (0) is *less* than slot
1's (1) — the spec's `≥` ordering is backwards. -/
theorem claim_C2_counterexample :
    (create 4 4 24 0 0 : Hashmap Nat Nat).setList [(2, 10, 7), (4, 11, 8)]
      = some ⟨2, 2, [2, 4], [10, 11], [7, 8]⟩ ∧
    (⟨2, 2, [2, 4], [10, 11], [7, 8]⟩ : Hashmap Nat Nat).LiveAt 0 ∧
    (⟨2, 2, [2, 4], [10, 11], [7, 8]⟩ : Hashmap Nat Nat).LiveAt 1 ∧
    (⟨2, 2, [2, 4], [10, 11], [7, 8]⟩ : Hashmap Nat Nat).idealAt 0 = 0 ∧
    (⟨2, 2, [2, 4], [10, 11], [7, 8]⟩ : Hashmap Nat Nat).idealAt 1 = 0 ∧
    (⟨2, 2, [2, 4], [10, 11], [7, 8]⟩ : Hashmap Nat Nat).pdAt 0 = 0 ∧
    (⟨2, 2, [2, 4], [10, 11], [7, 8]⟩ : Hashmap Nat Nat).pdAt 1 = 1 ∧
    ¬((⟨2, 2, [2, 4], [10, 11], [7, 8]⟩ : Hashmap Nat Nat).pdAt 1
      ≤ (⟨2, 2, [2, 4], [10, 11], [7, 8]⟩ : Hashmap Nat Nat).pdAt 0) := by
  decide



end Hashmap

/-- C3.  Corrected: the *hashset*'s FindSlot loop is guarded by
`distance < capacity` and always terminates with a result, and the
*hashmap*'s (unguarded, `while (42)`) FindSlot also always terminates —
but only within `2 * capacity` loop iterations, not `capacity` (the
counterexample shows a reachable table whose lookup is still unresolved
after `capacity` iterations). -/
theorem claim_C3_findslot_terminates (T K V : Type) [DecidableEq T]
    [Inhabited T] [DecidableEq K] [Inhabited K] [Inhabited V] :
    (∀ (s : Hashset T) (h : Nat) (x : T), s.capacity ≤ DELETED_HASH_BIT →
      (s.lookupPos h x).isSome) ∧
    (∀ (m : Hashmap K V) (h : Nat) (k : K), 0 < m.capacity →
      m.capacity ≤ DELETED_HASH_BIT → (m.lookupPos h k).isSome) :=
  ⟨fun s h x hcap => Hashset.hsLookupPos_total s h x hcap,
   fun m h k hcap0 hcap => Hashmap.lookupPos_total m h k hcap0 hcap⟩

theorem claim_C3_findslot_terminates_witness :
    ((⟨0, 1, [0], [0]⟩ : Hashset Nat).lookupPos 3 7).isSome ∧
    ((⟨2, 2, [6, 6], [0, 1], [0, 0]⟩ : Hashmap Nat Nat).lookupPos 6
      12).isSome :=
  ⟨(claim_C3_findslot_terminates Nat Nat Nat).1 ⟨0, 1, [0], [0]⟩ 3 7
      (by decide),
   (claim_C3_findslot_terminates Nat Nat Nat).2 ⟨2, 2, [6, 6], [0, 1], [0, 0]⟩
      6 12 (by decide) (by decide)⟩

/-- C3, refuted as stated for the hashmap: in the reachable capacity-2
table `[6, 6]`, the query `(6, 12)` is still unresolved after 2
(= capacity) iterations of the unguarded loop (`none` with fuel 2) and
needs a third iteration to report not-found — the loop is not bounded by
`distance < capacity`. -/
theorem claim_C3_counterexample :
    (Hashmap.create 4 4 24 0 0 : Hashmap Nat Nat).setList
        [(6, 0, 0), (6, 1, 0)]
      = some ⟨2, 2, [6, 6], [0, 1], [0, 0]⟩ ∧
    (⟨2, 2, [6, 6], [0, 1], [0, 0]⟩ : Hashmap Nat Nat).capacity = 2 ∧
    Hashmap.lookupPosAux (⟨2, 2, [6, 6], [0, 1], [0, 0]⟩ : Hashmap Nat Nat)
      6 12 (6 % 2) 0 2 = none ∧
    Hashmap.lookupPosAux (⟨2, 2, [6, 6], [0, 1], [0, 0]⟩ : Hashmap Nat Nat)
      6 12 (6 % 2) 0 3 = some (false, 0) := by decide

/-- C4.  The hashset's raw insert checks `num_elements == capacity` on
entry and is a no-op on a full set.  The hashmap's insert has **no such
guard**: on a full map (here the reachable full one-slot table) its
robin-hood loop keeps swapping the resident entry with the traveling one
and never terminates, whatever the fuel — the code, not the spec, is at
fault. -/
theorem claim_C4_insert_full_table (T : Type) [DecidableEq T]
    [Inhabited T] :
    (∀ (s : Hashset T) (h : Nat) (x : T), s.numElements = s.capacity →
      s._insert h x = some s) ∧
    ((Hashmap.create 4 4 12 0 0 : Hashmap Nat Nat).setList [(1, 0, 0)]
        = some Hashmap.fullOne ∧
      Hashmap.fullOne.numElements = Hashmap.fullOne.capacity) ∧
    (∀ fuel k v d,
      Hashmap.insertAux Hashmap.fullOne 1 k v 0 d fuel = none) ∧
    (∀ k v, Hashmap.fullOne.insert 1 k v = none) :=
  ⟨fun s h x hfull => Hashset.hsInsert_full s h x hfull,
   ⟨by decide, rfl⟩,
   fun fuel k v d => Hashmap.insertAux_fullOne_none fuel k v 0 0 d,
   fun k v => Hashmap.insertAux_fullOne_none 1 k v 0 0 0⟩

theorem claim_C4_insert_full_table_witness :
    (⟨2, 2, [5, 6], [1, 2]⟩ : Hashset Nat)._insert 9 3
      = some ⟨2, 2, [5, 6], [1, 2]⟩ ∧
    Hashmap.insertAux Hashmap.fullOne 1 7 8 0 0 100 = none :=
  ⟨(claim_C4_insert_full_table Nat).1 ⟨2, 2, [5, 6], [1, 2]⟩ 9 3 (by decide),
   (claim_C4_insert_full_table Nat).2.2.1 100 7 8 0⟩

namespace Hashmap

variable {K V : Type} [DecidableEq K] [Inhabited K] [Inhabited V]



/-- C5.  Copy fidelity, corrected: `num_elements` of the copy equals the
number of LIVE slots of the source, which is the source's `num_elements`
only when no phantom insert (a `set` whose hash normalizes to the empty
sentinel, see the counterexample) has inflated the counter.  Under the
insert invariants, with the counter consistent and a large enough fresh
buffer, the copy succeeds, matches the source's count, and every lookup
agrees with the source. -/
theorem claim_C5_copy_fidelity (m : Hashmap K V)
    (keySize valSize bufferSize : Nat) (k0 : K) (v0 : V)
    (hWf : m.Wf) (hcapD0 : m.capacity ≤ DELETED_HASH_BIT)
    (hcap0 : 0 < m.capacity)
    (hok : m.HashesOk) (hInv : m.ProbeInv) (hPI : m.PairInj)
    (hnum : m.numElements = m.liveCount)
    (hcapD : bufferSize / (keySize + valSize + 4) ≤ DELETED_HASH_BIT)
    (hcap0n : 0 < bufferSize / (keySize + valSize + 4))
    (hroom : m.liveCount ≤ bufferSize / (keySize + valSize + 4)) :
    ∃ T2, m.copy keySize valSize bufferSize k0 v0 = some T2 ∧
      T2.numElements = m.numElements ∧
      (∀ h k, T2.lookup h k = m.lookup h k) := by
  obtain ⟨T2, heq, hnum2, hagree⟩ :=
    copy_lookup_spec m keySize valSize bufferSize k0 v0 hWf hcapD0 hcap0
      hok hInv hPI hcapD hcap0n hroom
  exact ⟨T2, heq, by rw [hnum2, hnum], hagree⟩

theorem claim_C5_copy_fidelity_witness :
    ∃ T2, (⟨2, 2, [2, 4], [10, 11], [7, 8]⟩ : Hashmap Nat Nat).copy 4 4 36
        0 0 = some T2 ∧
      T2.numElements
        = (⟨2, 2, [2, 4], [10, 11], [7, 8]⟩ : Hashmap Nat Nat).numElements ∧
      (∀ h k, T2.lookup h k
        = (⟨2, 2, [2, 4], [10, 11], [7, 8]⟩ : Hashmap Nat Nat).lookup h k) :=
  claim_C5_copy_fidelity ⟨2, 2, [2, 4], [10, 11], [7, 8]⟩ 4 4 36 0 0
    (by decide) (by decide) (by decide) (by decide) (by decide)
    (pairInj_of_bounded _ (by decide)) (by decide) (by decide) (by decide)
    (by decide)

/-- C5, refuted as stated: `set` with caller hash `2^31` (which normalizes
to the empty sentinel `0`) bumps `num_elements` to 1 while writing an
empty slot; the copy of that table has `num_elements = 0 ≠ 1`. -/
theorem claim_C5_counterexample :
    ((create 4 4 12 0 0 : Hashmap Nat Nat).setList
        [(2147483648, 7, 9)]).bind
      (fun T => (T.copy 4 4 12 0 0).map
        (fun T2 => (T.numElements, T2.numElements))) = some (1, 0) ∧
    (1 : Nat) ≠ 0 := by decide

/-- C6.  `remove` of a present key marks the found slot's hash with the
DELETED bit (`|||`, keeping the low 31 position-encoding bits, as the
recovered `% DELETED_HASH_BIT` value shows), leaves the key and value
regions untouched, decrements `num_elements` and touches no other slot;
`remove` of an absent key returns the table unchanged. -/
theorem claim_C6_remove_semantics (m : Hashmap K V) (h : Nat) (k : K)
    (hWf : m.Wf) (hcapD : m.capacity ≤ DELETED_HASH_BIT)
    (hInv : m.ProbeInv) (hPI : m.PairInj) :
    (∀ v, m.MemLive (_hash h) k v →
      ∃ m' p, m.remove h k = some m' ∧ m.LiveAt p ∧ m.hget p = _hash h ∧
        m.keys.get? p = some k ∧ m'.keys = m.keys ∧ m'.values = m.values ∧
        m'.numElements = m.numElements - 1 ∧
        m'.hashes = m.hashes.set p (m.hget p ||| DELETED_HASH_BIT) ∧
        m'.hget p % DELETED_HASH_BIT = m.hget p ∧
        (m'.hget p).testBit 31 = true ∧
        (∀ j, j ≠ p → m'.hget j = m.hget j)) ∧
    (0 < m.capacity → m.FreshPair (_hash h) k → m.remove h k = some m) := by
  constructor
  · intro v hmem
    obtain ⟨m', p, heq, hlp, hhp, hkp, hk', hv', hn', hh', hadd, hlow, htb,
        hoth⟩ := remove_found_spec m h k v hWf hcapD hInv hPI hmem
    exact ⟨m', p, heq, hlp, hhp, hkp, hk', hv', hn', hh', hlow, htb, hoth⟩
  · intro hcap0 hfresh
    exact remove_absent_spec m h k hWf hcapD hcap0 hfresh

theorem claim_C6_remove_semantics_witness :
    (∃ m' p, (⟨2, 2, [2, 4], [10, 11], [7, 8]⟩ : Hashmap Nat Nat).remove 2
          10 = some m' ∧
        (⟨2, 2, [2, 4], [10, 11], [7, 8]⟩ : Hashmap Nat Nat).LiveAt p ∧
        (⟨2, 2, [2, 4], [10, 11], [7, 8]⟩ : Hashmap Nat Nat).hget p
          = _hash 2 ∧
        ([10, 11] : List Nat).get? p = some 10 ∧
        m'.keys = [10, 11] ∧ m'.values = [7, 8] ∧
        m'.numElements = 2 - 1 ∧
        m'.hashes = ([2, 4] : List Nat).set p
          ((⟨2, 2, [2, 4], [10, 11], [7, 8]⟩ : Hashmap Nat Nat).hget p
            ||| DELETED_HASH_BIT) ∧
        m'.hget p % DELETED_HASH_BIT
          = (⟨2, 2, [2, 4], [10, 11], [7, 8]⟩ : Hashmap Nat Nat).hget p ∧
        (m'.hget p).testBit 31 = true ∧
        (∀ j, j ≠ p → m'.hget j
          = (⟨2, 2, [2, 4], [10, 11], [7, 8]⟩ : Hashmap Nat Nat).hget j)) ∧
    (⟨2, 2, [2, 4], [10, 11], [7, 8]⟩ : Hashmap Nat Nat).remove 5 99
      = some ⟨2, 2, [2, 4], [10, 11], [7, 8]⟩ :=
  ⟨(claim_C6_remove_semantics ⟨2, 2, [2, 4], [10, 11], [7, 8]⟩ 2 10
      (by decide) (by decide) (by decide)
      (pairInj_of_bounded _ (by decide))).1 7
      ⟨0, by decide, by decide, by decide, by decide⟩,
   (claim_C6_remove_semantics ⟨2, 2, [2, 4], [10, 11], [7, 8]⟩ 5 99
      (by decide) (by decide) (by decide)
      (pairInj_of_bounded _ (by decide))).2 (by decide)
      (freshPair_of_bounded _ _ _ (by decide))⟩

/-- C7.  Iterator step, corrected: on exhaustion (no LIVE slot at or after
the cursor) `iter_next` reports nothing but leaves the cursor offset
**unchanged** — the code writes the cursor only on a hit, it does not set
it to `capacity` as the spec says (counterexample below); on the first
LIVE slot `p` it returns that slot's key and value and sets the cursor to
`p + 1`. -/
theorem claim_C7_iter_next (m : Hashmap K V) (offset : Nat)
    (hWf : m.Wf) (hok : m.HashesOk) :
    ((∀ j, offset ≤ j → j < m.capacity → ¬ m.LiveAt j) →
      m.iterNext offset = (offset, none)) ∧
    (∀ p, offset ≤ p → m.LiveAt p →
      (∀ j, offset ≤ j → j < p → ¬ m.LiveAt j) →
      m.iterNext offset
        = (p + 1,
            some (m.keys.getD p default, m.values.getD p default))) :=
  ⟨fun hno => iterNext_exhausted m hWf hok offset hno,
   fun p hip hlp hno => iterNext_live m hWf hok offset p hip hlp hno⟩

theorem claim_C7_iter_next_witness :
    (create 4 4 12 0 0 : Hashmap Nat Nat).iterNext 0 = (0, none) ∧
    (⟨2, 2, [2, 4], [10, 11], [7, 8]⟩ : Hashmap Nat Nat).iterNext 0
      = (1, some (10, 7)) :=
  ⟨(claim_C7_iter_next (create 4 4 12 0 0 : Hashmap Nat Nat) 0 (by decide)
      (by decide)).1
      (fun j h1 h2 => by
        have hj : j = 0 := by
          have : (create 4 4 12 0 0 : Hashmap Nat Nat).capacity = 1 := rfl
          omega
        subst hj
        decide),
   (claim_C7_iter_next (⟨2, 2, [2, 4], [10, 11], [7, 8]⟩ : Hashmap Nat Nat)
      0 (by decide) (by decide)).2 0 le_rfl (by decide)
      (fun j h1 h2 => absurd h2 (by omega))⟩

/-- C7, refuted as stated: iterating the (reachable) empty one-slot table
reports exhausted but leaves the cursor at 0, not at `capacity = 1`. -/
theorem claim_C7_counterexample :
    (create 4 4 12 0 0 : Hashmap Nat Nat).iterNext 0 = (0, none) ∧
    (create 4 4 12 0 0 : Hashmap Nat Nat).capacity = 1 ∧ (0 : Nat) ≠ 1 := by
  refine ⟨?_, rfl, by decide⟩
  have h1 : (create 4 4 12 0 0 : Hashmap Nat Nat).iterNextAux 1 = none := by
    rw [iterNextAux.eq_def, dif_neg (by decide)]
  have h0 : (create 4 4 12 0 0 : Hashmap Nat Nat).iterNextAux 0 = none := by
    rw [iterNextAux.eq_def, dif_pos (by decide), if_pos (by decide)]
    exact h1
  unfold iterNext
  rw [h0]



/-- C8.  Normalization in closed form on `uint32` inputs (`0` becomes `1`,
a set DELETED bit is cleared by the subtraction, everything else is
unchanged), hashes `0` and `1` normalize identically, and consequently
each of the four hash-indexed operations behaves identically under caller
hashes `0` and `1` on every table state. -/
theorem claim_C8_normalization (K V : Type) [DecidableEq K] [Inhabited K]
    [Inhabited V] :
    (∀ h : Nat, h < U32 →
      Hashmap._hash h
        = if h = 0 then 1
          else if DELETED_HASH_BIT ≤ h then h - DELETED_HASH_BIT else h) ∧
    Hashmap._hash 0 = Hashmap._hash 1 ∧
    (∀ (m : Hashmap K V) (k : K) (v : V),
      m.set 0 k v = m.set 1 k v ∧ m.lookup 0 k = m.lookup 1 k ∧
      m.get 0 k = m.get 1 k ∧ m.remove 0 k = m.remove 1 k) :=
  ⟨fun h hlt => _hash_closed_form h hlt, rfl,
   fun m k v => Hashmap.ops_hash_congr m 0 1 k v rfl⟩

theorem claim_C8_normalization_witness :
    Hashmap._hash 2147483653 = 5 ∧
    ((⟨1, 1, [1], [3], [4]⟩ : Hashmap Nat Nat).lookup 0 3
      = (⟨1, 1, [1], [3], [4]⟩ : Hashmap Nat Nat).lookup 1 3) :=
  ⟨((claim_C8_normalization Nat Nat).1 2147483653 (by decide)).trans
      (by decide),
   ((claim_C8_normalization Nat Nat).2.2 ⟨1, 1, [1], [3], [4]⟩ 3 0).2.1⟩

/-- C9.  The five-slot pool scenario, computed step by step: five
allocations hand out the distinct slot indices 0..4 (distinct non-null
addresses `&buffer[i].value`), the sixth fails, and after freeing any one
element a further allocation succeeds, returns exactly the freed slot, and
the element count comes back to capacity without ever exceeding it. -/
theorem claim_C9_pool_scenario :
    Memorypool.create 4 4 20 = ⟨0, 5, 0, [1, 2, 3, 4, 0]⟩ ∧
    (⟨0, 5, 0, [1, 2, 3, 4, 0]⟩ : Memorypool).allocate
      = some (0, ⟨1, 5, 1, [2, 2, 3, 4, 0]⟩) ∧
    (⟨1, 5, 1, [2, 2, 3, 4, 0]⟩ : Memorypool).allocate
      = some (1, ⟨2, 5, 2, [2, 3, 3, 4, 0]⟩) ∧
    (⟨2, 5, 2, [2, 3, 3, 4, 0]⟩ : Memorypool).allocate
      = some (2, ⟨3, 5, 3, [2, 3, 4, 4, 0]⟩) ∧
    (⟨3, 5, 3, [2, 3, 4, 4, 0]⟩ : Memorypool).allocate
      = some (3, ⟨4, 5, 4, [2, 3, 4, 0, 0]⟩) ∧
    (⟨4, 5, 4, [2, 3, 4, 0, 0]⟩ : Memorypool).allocate
      = some (4, ⟨5, 5, 0, [2, 3, 4, 0, 2]⟩) ∧
    List.Nodup [0, 1, 2, 3, 4] ∧
    (⟨5, 5, 0, [2, 3, 4, 0, 2]⟩ : Memorypool).allocate = none ∧
    (∀ j, j < 5 →
      ((⟨5, 5, 0, [2, 3, 4, 0, 2]⟩ : Memorypool).free j).numElements = 4 ∧
      (((⟨5, 5, 0, [2, 3, 4, 0, 2]⟩ : Memorypool).free j).allocate).map
          (fun r => (r.1, r.2.numElements, r.2.capacity))
        = some (j, 5, 5)) := by decide

/-- C10.  Corrected: normalization is *not* idempotent on every input
(caller hash `2^31` normalizes to the empty sentinel `0`, which
re-normalizes to `1` — counterexample below); it is idempotent on every
hash whose normalization is nonzero, and since a found `lookup` can only
have matched a nonzero stored hash, `get` (which re-normalizes) still
returns exactly the value `lookup` reports whenever `lookup` reports
found. -/
theorem claim_C10_idempotence_get (K V : Type) [DecidableEq K]
    [Inhabited K] [Inhabited V] :
    (∀ h : Nat, Hashmap._hash h ≠ 0 →
      Hashmap._hash (Hashmap._hash h) = Hashmap._hash h) ∧
    (∀ (m : Hashmap K V) (h : Nat) (k : K) (v : V),
      m.lookup h k = some (some v) → m.get h k = some v) :=
  ⟨fun h hnz => Hashmap._hash_idem_of_ne h hnz,
   fun m h k v hlk => Hashmap.get_eq_of_lookup_found m h k v hlk⟩

theorem claim_C10_idempotence_get_witness :
    Hashmap._hash (Hashmap._hash 5) = Hashmap._hash 5 ∧
    (⟨2, 2, [2, 4], [10, 11], [7, 8]⟩ : Hashmap Nat Nat).get 2 10
      = some 7 :=
  ⟨(claim_C10_idempotence_get Nat Nat).1 5 (by decide),
   (claim_C10_idempotence_get Nat Nat).2 ⟨2, 2, [2, 4], [10, 11], [7, 8]⟩
      2 10 7 (by decide)⟩

/-- C10, refuted as stated: caller hash `2^31` normalizes to `0` (its low
31 bits), and normalizing again gives `1`, so the normalization is not
idempotent. -/
theorem claim_C10_counterexample :
    Hashmap._hash 2147483648 = 0 ∧
    Hashmap._hash (Hashmap._hash 2147483648) = 1 ∧ (1 : Nat) ≠ 0 := by
  decide


end Hashmap

end cf